import Mathlib

/-!
Shallow embedding of `src/fast_samtools_sort.cpp` (fast-samtools-sort).

The program sorts SAM/BAM alignment records by linearized genomic coordinate:

* pass 1 (`fieldSplitter`, `pass == 1`): parses the header `@SQ` lines into a
  contig-to-offset table and builds a coarse histogram `table` of per-interval
  byte/line counts, with a growing tail region for unaligned (`*`) records;
* the planner (`fast_samtools_sort`, lines 457-486): greedily groups the
  aligned histogram bins into blocks of byte weight bounded by
  `opt_memory_per_thread`, overwriting `table[i].num_char` with the block id of
  bin `i` and `table[i].num_lines` with the running sub-bucket index
  (`lines_per_file.numLines / 10000`); every tail bin becomes one bypass block;
* pass 2 (`fieldSplitter`, `pass == 2`): routes every record line to the file
  of its block, unaligned records by a countdown walk over the tail bins;
* workers (`thread_worker`): pull block ids from a mutex-protected counter;
  an aligned block is loaded into a per-worker arena (`char* sam`), split into
  sub-buckets of the `samRecords` array, each sub-bucket sorted with
  `std::sort` under `SamRecord_cmp`, and written out; a bypass block is
  streamed through unchanged;
* the driver concatenates the per-block outputs in block-id order
  (`samtools cat`) and `main` handles options and exit codes.

Records are abstracted to the fields the pipeline reads: the linearized key
`contig2pos[contig] + position` (`none` for the `*` sentinel), the line byte
weight `strlen(line) + 1`, and a ghost input index.
-/

set_option maxHeartbeats 1600000

namespace FSS

/-- Histogram interval width: `const size_t interval = 1 << 10` in `fieldSplitter`. -/
def interval : Nat := 1 <<< 10

/-- One post-header data line of the decoded record stream. `key` is the
linearized coordinate `contig2pos[contig_name] + strtol(position)` computed by
`fieldSplitter` from fields 2 and 3, or `none` when the contig field is the
sentinel `*`; `w` is `strlen(line) + 1`, the byte weight the code accounts for
this line everywhere; `idx` is the position of the line in the input stream,
carried only as an identity for stating order-preservation. -/
structure Line where
  key : Option Nat
  w : Nat
  idx : Nat
deriving DecidableEq

/-- Entry of `std::vector<table_records> table`: per-bin line and byte counts
during pass 1, reused by the planner as (sub-bucket index, block id). -/
structure table_records where
  num_lines : Nat
  num_char : Nat
deriving DecidableEq

instance : Inhabited table_records := ⟨⟨0, 0⟩⟩

/-- Account one record of byte weight `w` to histogram bin `i`:
`(*table)[i].num_char += w; (*table)[i].num_lines++;` (pass 1). -/
def bumpBin (t : List table_records) (i : Nat) (w : Nat) : List table_records :=
  t.set i ⟨(t.getD i default).num_lines + 1, (t.getD i default).num_char + w⟩

/-- Growth step for the tail region (lines 243-248): when the last table
entry would exceed `opt_memory_per_thread`, a fresh zero entry is pushed. -/
def tailGrow (B : Nat) (t : List table_records) (w : Nat) : List table_records :=
  if B < (t.getD (t.length - 1) default).num_char + w then t ++ [⟨0, 0⟩] else t

/-- Pass-1 accounting of one unaligned (`*`) record of weight `w`
(lines 242-250): the tail region grows if needed, then the last entry is
bumped. -/
def tailBinStep (B : Nat) (t : List table_records) (w : Nat) : List table_records :=
  bumpBin (tailGrow B t w) ((tailGrow B t w).length - 1) w

/-- Pass-1 accounting of one data record (lines 239-255): aligned records go
to bin `pos / interval`, unaligned records to the growing tail region. -/
def pass1Step (B : Nat) (t : List table_records) (l : Line) : List table_records :=
  match l.key with
  | some k => bumpBin t (k / interval) l.w
  | none => tailBinStep B t l.w

/-- Histogram produced by pass 1. `ts` is `table_size =
(size_sofar + interval - 1) / interval + 1` fixed at the first data line;
the table starts as `ts` zero entries (lines 200-208) and is folded over the
data records. Bins `0 .. ts-2` are aligned bins, bins `ts-1 ..` the tail. -/
def mkTable (B ts : Nat) (recs : List Line) : List table_records :=
  recs.foldl (pass1Step B) (List.replicate ts ⟨0, 0⟩)

/-- State of the planner loop of `fast_samtools_sort` (lines 457-477).
`samSize` is `sam_size`, `curBins` the bins accumulated in the block being
built (ghost, the code only keeps their running sums), `blocks` the closed
blocks, `curLines` is `lines_per_file.numLines`, `binBlock` records the value
written into `table[itr].num_char` (`file_num - 1`, the block id of bin `itr`)
and `binSub` the value written into `table[itr].num_lines`
(`lines_per_file.numLines / 10000`, the sub-bucket index of bin `itr`). -/
structure PlanState where
  samSize : Nat
  curBins : List table_records
  blocks : List (List table_records)
  curLines : Nat
  binBlock : List Nat
  binSub : List Nat
deriving DecidableEq

/-- Planner loop entry state: `sam_size = 0`, `file_num = 1`, default
`lines_per_file`, empty `arrFileLines`. -/
def planInit : PlanState := ⟨0, [], [], 0, [], []⟩

/-- One iteration of the planner loop (lines 463-476) over aligned bin `tr`:
if `sam_size + table[itr].num_char > opt_memory_per_thread` the current block
is closed (no `sam_size > 0` guard in the source) and a new one starts with
this bin, else the bin joins the current block; afterwards the bin is tagged
with its block id `file_num - 1` and sub-bucket index `numLines / 10000`. -/
def planStep (B : Nat) (s : PlanState) (tr : table_records) : PlanState :=
  if B < s.samSize + tr.num_char then
    ⟨tr.num_char, [tr], s.blocks ++ [s.curBins], tr.num_lines,
      s.binBlock ++ [s.blocks.length + 1], s.binSub ++ [tr.num_lines / 10000]⟩
  else
    ⟨s.samSize + tr.num_char, s.curBins ++ [tr], s.blocks, s.curLines + tr.num_lines,
      s.binBlock ++ [s.blocks.length], s.binSub ++ [(s.curLines + tr.num_lines) / 10000]⟩

/-- Planner loop over the aligned bins in coordinate order. -/
def planFold (B : Nat) (bins : List table_records) : PlanState :=
  bins.foldl (planStep B) planInit

/-- Aligned bins handed to the planner: `table[0 .. table_size-2]`. -/
def alignedBinsOf (B ts : Nat) (recs : List Line) : List table_records :=
  (mkTable B ts recs).take (ts - 1)

/-- Final planner state for the pipeline instance. -/
def planOf (B ts : Nat) (recs : List Line) : PlanState :=
  planFold B (alignedBinsOf B ts recs)

/-- Aligned blocks in production order: the closed blocks plus the final
`arrFileLines.push_back(lines_per_file)` after the loop (line 477). -/
def blocksOf (B ts : Nat) (recs : List Line) : List (List table_records) :=
  (planOf B ts recs).blocks ++ [(planOf B ts recs).curBins]

/-- Number of aligned blocks, `aligned_file_num = file_num` at line 479. -/
def numAlignedOf (B ts : Nat) (recs : List Line) : Nat := (blocksOf B ts recs).length

/-- Total line count of a block, `arrFileLines[b].numLines` for aligned `b`. -/
def blockNumLines (blk : List table_records) : Nat :=
  (blk.map fun tr => tr.num_lines).sum

/-- Total byte weight of a block (sum of its bins' `num_char`). -/
def blockWeight (blk : List table_records) : Nat :=
  (blk.map fun tr => tr.num_char).sum

/-- Invariant of the planner loop. `binBlock`/`binSub` entries are the tags
written back into the table for the bins processed so far; `blocks` are the
closed blocks and `curBins` the open one. The fields record: tag-list
lengths agree; `sam_size` and `lines_per_file.numLines` are the sums over the
open block; block ids are bounded by the closed-block count and
nondecreasing over bins; sub-bucket indices are nondecreasing within one
block and bounded by the block's total line count divided by 10000; and
every block is within budget except single oversized bins. -/
structure PlanInv (B : Nat) (s : PlanState) : Prop where
  lenSub : s.binSub.length = s.binBlock.length
  samEq : s.samSize = blockWeight s.curBins
  linesEq : s.curLines = blockNumLines s.curBins
  bound : ∀ i, i < s.binBlock.length → s.binBlock.getD i 0 ≤ s.blocks.length
  mono : ∀ i j, i ≤ j → j < s.binBlock.length → s.binBlock.getD i 0 ≤ s.binBlock.getD j 0
  subMono : ∀ i j, i ≤ j → j < s.binBlock.length →
    s.binBlock.getD i 0 = s.binBlock.getD j 0 → s.binSub.getD i 0 ≤ s.binSub.getD j 0
  subBound : ∀ i, i < s.binBlock.length →
    s.binSub.getD i 0
      ≤ blockNumLines ((s.blocks ++ [s.curBins]).getD (s.binBlock.getD i 0) []) / 10000
  blocksOK : ∀ blk ∈ s.blocks, blockWeight blk ≤ B ∨ ∃ tr, blk = [tr] ∧ B < tr.num_char
  curOK : blockWeight s.curBins ≤ B ∨ ∃ tr, s.curBins = [tr] ∧ B < tr.num_char

/-- Sub-bucket count of aligned block `b` in `thread_worker`:
`(arrFileLines[cur_block].numLines / 10000) + 1` (line 318). -/
def numSubOf (B ts : Nat) (recs : List Line) (b : Nat) : Nat :=
  blockNumLines ((blocksOf B ts recs).getD b []) / 10000 + 1

/-- Contents, in input order, of the pass-2 bucket file of aligned block `b`:
pass 2 writes every aligned line to `vec_pipes[table[pos / interval].num_char]`
(line 266), where `num_char` now holds the block id recorded in `binBlock`. -/
def bucketFileOf (bb : List Nat) (recs : List Line) (b : Nat) : List Line :=
  recs.filter fun l =>
    match l.key with
    | some k => bb.getD (k / interval) 0 == b
    | none => false

/-- Record descriptor built by pass 3 (`struct SamRecord`): `read_id` is the
arrival index the code assigns, `pos` the linearized position, and `line` the
stored line (a `char*` into the arena in the source). -/
structure SamRecord where
  read_id : Nat
  pos : Nat
  line : Line
deriving DecidableEq

/-- Comparator `SamRecord_cmp` (lines 104-109): by `pos`, ties by `read_id`. -/
def SamRecord_cmp (a b : SamRecord) : Bool :=
  if a.pos != b.pos then decide (a.pos < b.pos) else decide (a.read_id < b.read_id)

/-- Value of `std::numeric_limits<size_t>::max()`, the key given to unaligned
records in pass 3 (line 273). -/
def maxKey : Nat := 2 ^ 64 - 1

/-- Linearized key of a line as pass 3 computes `samRecord.pos`. -/
def lineKey (l : Line) : Nat :=
  match l.key with
  | some k => k
  | none => maxKey

/-- Worker-side loading state: the `samRecords` array of sub-bucket vectors
and the arena cursor `sam_cur - sam` (bytes copied so far). -/
structure LoadState where
  subs : List (List SamRecord)
  sam_cur : Nat
deriving DecidableEq

/-- Pass-3 treatment of one bucket-file line (lines 269-280): the record gets
`read_id = samRecords->size()` — the current length of sub-bucket 0, whatever
sub-bucket the record is pushed into — its linearized `pos`, and is pushed
into `samRecords[table[pos / interval].num_lines]`; the line bytes were first
copied to the arena cursor, which advances by `strlen + 1` with no bound
check (lines 189, 278). -/
def loadStep (bs : List Nat) (st : LoadState) (l : Line) : LoadState :=
  ⟨st.subs.set (bs.getD (lineKey l / interval) 0)
      (st.subs.getD (bs.getD (lineKey l / interval) 0) []
        ++ [⟨(st.subs.getD 0 []).length, lineKey l, l⟩]),
    st.sam_cur + l.w⟩

/-- Pass 3 over one aligned bucket file: `samRecords` starts as `numSub`
empty vectors (lines 318-321), the arena cursor at the slab base. -/
def loadBlock (bs : List Nat) (numSub : Nat) (file : List Line) : LoadState :=
  file.foldl (loadStep bs) ⟨List.replicate numSub [], 0⟩

/-- Postcondition of `std::sort(v.begin(), v.end(), SamRecord_cmp())`: the
result is sorted with respect to the comparator, i.e. no later element
compares strictly below an earlier one. -/
def SortedRun (v : List SamRecord) : Prop :=
  v.Pairwise fun a b => SamRecord_cmp b a = false

/-- Contract of the comparison sort the worker may use: any permutation of
the input that is sorted under `SamRecord_cmp`. `std::sort` is not stable, so
nothing beyond this is guaranteed. -/
def SortSpec (f : List SamRecord → List SamRecord) : Prop :=
  ∀ v, (f v).Perm v ∧ SortedRun (f v)

/-- Record lines written by a worker for aligned block `b`: each sub-bucket is
sorted (line 356) and the sub-buckets are emitted in index order
(lines 386-391); the shard also carries the header, which we elide since the
claims quantify over records. -/
def alignedShard (f : List SamRecord → List SamRecord) (B ts : Nat) (recs : List Line)
    (b : Nat) : List Line :=
  ((((loadBlock (planOf B ts recs).binSub (numSubOf B ts recs b)
      (bucketFileOf (planOf B ts recs).binBlock recs b)).subs).map f).flatten).map
    fun r => r.line

/-- State of the pass-2 unaligned countdown (lines 257-263): `unalign_itr`,
the remaining per-tail-bin line counts that pass 2 decrements in place, and
the routed `(tail bin index, line)` pairs in emission order. -/
structure TailState where
  unalign_itr : Nat
  counts : List Nat
  out : List (Nat × Line)

/-- Pass-2 treatment of one record for the unaligned state: aligned records
leave it untouched; an unaligned record first advances `unalign_itr` once if
the current tail bin's remaining count is zero, is written to the bucket file
`aligned_file_num + unalign_itr`, and the count is decremented. -/
def tailDest (st : TailState) : Nat :=
  if st.counts.getD st.unalign_itr 0 == 0 then st.unalign_itr + 1 else st.unalign_itr

/-- Update of the unaligned routing state by one unaligned record. -/
def tailPush (st : TailState) (l : Line) : TailState :=
  ⟨tailDest st, st.counts.set (tailDest st) (st.counts.getD (tailDest st) 0 - 1),
    st.out ++ [(tailDest st, l)]⟩

/-- Pass-2 treatment of one record for the unaligned routing state: aligned
records leave it untouched. -/
def tailStep (st : TailState) (l : Line) : TailState :=
  match l.key with
  | some _ => st
  | none => tailPush st l

/-- Routing of the unaligned records over the whole second pass. -/
def tailAssign (counts : List Nat) (recs : List Line) : List (Nat × Line) :=
  (recs.foldl tailStep ⟨0, counts, []⟩).out

/-- Tail bins of the histogram: `table[table_size-1 ..]`, each of which the
driver turns into one bypass block (lines 482-486). -/
def tailBinsOf (B ts : Nat) (recs : List Line) : List table_records :=
  (mkTable B ts recs).drop (ts - 1)

/-- Per-tail-bin line counts as pass 2 reads them (`table[..].num_lines`,
untouched by the planner which stops at `table_size - 2`). -/
def tailCountsOf (B ts : Nat) (recs : List Line) : List Nat :=
  (tailBinsOf B ts recs).map fun tr => tr.num_lines

/-- Number of bypass blocks: `table.size() - (table_size - 1)` (line 480). -/
def numTailOf (B ts : Nat) (recs : List Line) : Nat := (tailBinsOf B ts recs).length

/-- Restriction of the pass-1 fold to the tail region: aligned records do not
touch it; used to reason about the tail bins in isolation. -/
def tailOnlyStep (B : Nat) (t : List table_records) (l : Line) : List table_records :=
  match l.key with
  | some _ => t
  | none => tailBinStep B t l.w

/-- Tail region of the histogram computed on its own: pass 1 starts it as the
single reserved bin `table[table_size - 1]` and grows it record by record. -/
def tailPartFold (B : Nat) (recs : List Line) : List table_records :=
  recs.foldl (tailOnlyStep B) [⟨0, 0⟩]

/-- Invariant of the pass-2 unaligned countdown against `m` tail bins and
`remaining` unaligned records still to route: the cursor is inside the bins,
the remaining counts from the cursor on sum to the remaining records, every
bin past the cursor is nonempty, and the routed pairs have nondecreasing tail
bin indices below `m`. -/
structure TailRouteInv (m : Nat) (st : TailState) (remaining : Nat) : Prop where
  itr_lt : st.unalign_itr < m
  len_eq : st.counts.length = m
  sum_eq : (st.counts.drop st.unalign_itr).sum = remaining
  later_ge1 : ∀ j, st.unalign_itr < j → j < m → 1 ≤ st.counts.getD j 0
  out_lt : ∀ p ∈ st.out, p.1 < m
  out_le : ∀ p ∈ st.out, p.1 ≤ st.unalign_itr
  out_mono : st.out.Pairwise fun p q => p.1 ≤ q.1

/-- Invariant of the tail region during pass 1: it is nonempty, every bin
past the first holds at least one record, its line counts sum to the number
of unaligned records seen, and every bin is within budget except bins holding
exactly one record whose own weight exceeds the budget. -/
structure TailPartInv (B : Nat) (t : List table_records) (cnt : Nat) : Prop where
  nonempty : 1 ≤ t.length
  ge1 : ∀ j, 1 ≤ j → j < t.length → 1 ≤ (t.getD j default).num_lines
  sumEq : (t.map fun tr => tr.num_lines).sum = cnt
  binOK : ∀ tr ∈ t, tr.num_char ≤ B ∨ (tr.num_lines = 1 ∧ B < tr.num_char)

/-- Record lines written for bypass block `j` (block id
`aligned_file_num + j`): the worker streams the bucket file through unchanged
(lines 394-424), so these are the lines routed to tail bin `j`, in order. -/
def unalignedShard (B ts : Nat) (recs : List Line) (j : Nat) : List Line :=
  ((tailAssign (tailCountsOf B ts recs) recs).filter fun p => p.1 == j).map fun p => p.2

/-- Record lines of the shard of block `b`: blocks `0 .. aligned_file_num - 1`
are sorted aligned blocks, the rest bypass blocks (`arrFileLines[b].bypass`). -/
def shardFor (f : List SamRecord → List SamRecord) (B ts : Nat) (recs : List Line)
    (b : Nat) : List Line :=
  if b < numAlignedOf B ts recs then alignedShard f B ts recs b
  else unalignedShard B ts recs (b - numAlignedOf B ts recs)

/-- Total number of blocks, `file_num` after line 480. -/
def numBlocksOf (B ts : Nat) (recs : List Line) : Nat :=
  numAlignedOf B ts recs + numTailOf B ts recs

/-- Record stream of the final concatenated output: `samtools cat` joins the
per-block shards in ascending block id (lines 550-557). `f` is the
comparison sort used by the workers, `B` is `opt_memory_per_thread`, `ts` the
`table_size` derived from the header. -/
def pipelineOut (f : List SamRecord → List SamRecord) (B ts : Nat)
    (recs : List Line) : List Line :=
  ((List.range (numBlocksOf B ts recs)).map (shardFor f B ts recs)).flatten

/-- Shards produced by worker `wk` under a given schedule: `claim b` names the
worker that wins block `b` at the mutex-protected counter (lines 299-311); the
shard file content is a function of the block id alone — `thread_id` is used
only for verbose logging. -/
def workerShards (f : List SamRecord → List SamRecord) (B ts : Nat) (recs : List Line)
    (claim : Nat → Nat) (wk : Nat) : List (Nat × List Line) :=
  (((List.range (numBlocksOf B ts recs)).filter fun b => claim b == wk).map
    fun b => (b, shardFor f B ts recs b))

/-- Every `<base>.tmp.sorted.<b>` shard file on disk after all `W` workers
joined, keyed by block id. -/
def shardsProduced (f : List SamRecord → List SamRecord) (B ts : Nat) (recs : List Line)
    (claim : Nat → Nat) (W : Nat) : List (Nat × List Line) :=
  ((List.range W).map (workerShards f B ts recs claim)).flatten

/-- Record stream of the final output as the concatenator builds it: shard
files are read back by block id in ascending order, whatever worker wrote
them. -/
def concatOut (f : List SamRecord → List SamRecord) (B ts : Nat) (recs : List Line)
    (claim : Nat → Nat) (W : Nat) : List Line :=
  ((List.range (numBlocksOf B ts recs)).map fun b =>
    ((shardsProduced f B ts recs claim W).lookup b).getD []).flatten

/-- Comparison of output lines by linearized key, with the `*` sentinel
(`key = none`) strictly after every finite key. -/
def keyLE (a b : Line) : Prop :=
  match a.key, b.key with
  | some x, some y => x ≤ y
  | some _, none => True
  | none, none => True
  | none, some _ => False

/-- Decidable form of the well-formedness bound pass 1 relies on: every
aligned key falls into an aligned bin (`pos / interval < table_size - 1`),
which holds whenever positions lie inside the declared reference lengths and
the linearized genome end does not sit exactly on an interval boundary. -/
def keyInRangeB (ts : Nat) (l : Line) : Bool :=
  match l.key with
  | some k => decide (k / interval < ts - 1)
  | none => true

/-- Input sanity bundle for the pipeline theorems. -/
def KeysBounded (ts : Nat) (recs : List Line) : Prop :=
  ∀ l ∈ recs, keyInRangeB ts l = true

instance (ts : Nat) (recs : List Line) : Decidable (KeysBounded ts recs) := by
  unfold KeysBounded
  infer_instance

/-- Insertion into a run sorted by `SamRecord_cmp`; used only to exhibit one
concrete comparison sort satisfying `SortSpec` for the witnesses. -/
def insertRec (r : SamRecord) : List SamRecord → List SamRecord
  | [] => [r]
  | x :: xs => if SamRecord_cmp r x then r :: x :: xs else x :: insertRec r xs

/-- Insertion sort under `SamRecord_cmp`. -/
def insSort : List SamRecord → List SamRecord
  | [] => []
  | x :: xs => insertRec x (insSort xs)

/-- Fields 1 and 2 of a header `@SQ` line as `strtok_r` delivers them,
e.g. `SN:14` and `LN:107043718`. -/
structure SQLine where
  f1 : String
  f2 : String
deriving DecidableEq

instance : Inhabited SQLine := ⟨⟨"", ""⟩⟩

/-- Leading-digit evaluation of `strtol(s, ..., 10)` on the field tail. -/
def strtolNatAux : List Char → Nat → Nat
  | [], acc => acc
  | c :: cs, acc => if c.isDigit then strtolNatAux cs (acc * 10 + (c.toNat - 48)) else acc

/-- Numeric value `strtol` reads from a field tail such as `107043718`. -/
def strtolNat (s : String) : Nat := strtolNatAux s.toList 0

/-- Header-parsing state: the `Contig2Pos` table as an ordered association
list plus `size_sofar`, the genome length accumulated so far. -/
structure HeaderState where
  contig2pos : List (String × Nat)
  size_sofar : Nat
deriving DecidableEq

/-- Processing of one `@SQ` declaration in pass 1 (lines 217-236): a field-1
(`SN:`) of length at most 3 throws, else the name (the field past `SN:`) is
added at offset `size_sofar`; a field-2 (`LN:`) of length at most 3 throws,
else `size_sofar` advances by the parsed length. The thrown
`std::runtime_error` is the `MalformedHeader` failure of the spec. -/
def headerSQStep (st : HeaderState) (l : SQLine) : Except Unit HeaderState :=
  if l.f1.length ≤ 3 then Except.error ()
  else
    let c2p := st.contig2pos ++ [(l.f1.drop 3, st.size_sofar)]
    if l.f2.length ≤ 3 then Except.error ()
    else Except.ok ⟨c2p, st.size_sofar + strtolNat (l.f2.drop 3)⟩

/-- Sequential processing of `@SQ` declarations from a given state; a thrown
`runtime_error` aborts the run (the exception escapes `fast_samtools_sort`). -/
def processHeaderFrom (st : HeaderState) : List SQLine → Except Unit HeaderState
  | [] => Except.ok st
  | l :: ls =>
    match headerSQStep st l with
    | Except.error e => Except.error e
    | Except.ok st2 => processHeaderFrom st2 ls

/-- Pass-1 processing of all `@SQ` declarations in header order. -/
def processHeader (ls : List SQLine) : Except Unit HeaderState :=
  processHeaderFrom ⟨[], 0⟩ ls

/-- Reference table as the spec describes it: each name mapped to the
cumulative length of the references declared before it. -/
def refTableFrom (off : Nat) : List SQLine → List (String × Nat)
  | [] => []
  | l :: ls => (l.f1.drop 3, off) :: refTableFrom (off + strtolNat (l.f2.drop 3)) ls

/-- Total declared genome length starting from `off`. -/
def totalLenFrom (off : Nat) : List SQLine → Nat
  | [] => off
  | l :: ls => totalLenFrom (off + strtolNat (l.f2.drop 3)) ls

/-- Outcome of a process run: a normal `return code` from `main`, or an abort
via `std::terminate` after an uncaught exception. -/
inductive ExitOutcome where
  | exits (code : Nat)
  | aborted
deriving DecidableEq

/-- Abstraction of the branch conditions `main` and `fast_samtools_sort` take
on the way to a process exit: `argcOne` is `argc == 1`; `missingArg`,
`badUintArg`, `unrecognizedOpt` the three option-parse error returns
(lines 608-616, 646-648); `inputExists` the `ifstream` check (lines 655-660);
`popenOk` whether every `popen` call returns a pipe; `headerOk` whether no
`@SQ` field check throws; `concatStatus` the `system("samtools cat ...")`
return value (line 559). -/
structure RunEnv where
  argcOne : Bool
  missingArg : Bool
  badUintArg : Bool
  unrecognizedOpt : Bool
  inputExists : Bool
  popenOk : Bool
  headerOk : Bool
  concatStatus : Nat
deriving DecidableEq

/-- Exit outcome of a run of `main`: every explicit `return` in `main` returns
0 (lines 589, 610, 616, 647, 659, 700), `fast_samtools_sort` returns 0 even
when `samtools cat` reports failure (lines 560-562, 569, only a diagnostic is
printed), and a throw from `fieldSplitter` or a failed `popen` escapes
uncaught, so the process aborts via `std::terminate`. -/
def mainExit (e : RunEnv) : ExitOutcome :=
  if e.argcOne then ExitOutcome.exits 0
  else if e.missingArg then ExitOutcome.exits 0
  else if e.badUintArg then ExitOutcome.exits 0
  else if e.unrecognizedOpt then ExitOutcome.exits 0
  else if !e.inputExists then ExitOutcome.exits 0
  else if !e.popenOk then ExitOutcome.aborted
  else if !e.headerOk then ExitOutcome.aborted
  else ExitOutcome.exits 0

/-- Program options relevant to the collaborator command lines (the static
`opt_*` globals of lines 36-44). -/
structure Opts where
  infname : String
  outfname : String
  threads : Nat
  memory : Nat
  compression : Nat
  verbose : Bool
  sambamba : Bool
  sam : Bool
deriving DecidableEq

/-- Clamp applied when parsing `-l`: `opt_compression = std::min<size_t>(9,
uint_value)` (line 622). -/
def opt_compression_parse (uint_value : Nat) : Nat := min 9 uint_value

/-- Identical options with the compression level replaced. -/
def setCompression (o : Opts) (c : Nat) : Opts :=
  ⟨o.infname, o.outfname, o.threads, o.memory, c, o.verbose, o.sambamba, o.sam⟩

/-- Decoder command line built in `fast_samtools_sort` (lines 435-439). -/
def decoderCmd (o : Opts) : String :=
  (if o.sambamba then "sambamba" else "samtools")
    ++ (if o.sam && o.sambamba then " view -h -S " else " view -h ")
    ++ (if o.sambamba then "--nthreads " else "--threads ")
    ++ toString o.threads ++ " " ++ o.infname

/-- Encoder command line built in `thread_worker` (lines 373-380 and
403-410). -/
def encoderCmd (o : Opts) (fname_base : String) (cur_block : Nat) : String :=
  ((if o.sambamba then "sambamba" else "samtools") ++ " view "
      ++ (if o.sambamba then " -f bam -S /dev/stdin -o " else " -bS - > "))
    ++ fname_base ++ ".tmp.sorted." ++ toString cur_block

/-- Concatenator command line built in `fast_samtools_sort`
(lines 551-557). -/
def concatCmd (o : Opts) (file_num : Nat) : String :=
  "samtools cat -o " ++ o.outfname
    ++ String.join ((List.range file_num).map fun i =>
        " " ++ o.infname ++ ".tmp.sorted." ++ toString i)

/-- Full pipeline output as a function of the options: the per-worker budget
is `opt_memory_per_thread = opt_memory / opt_threads` (line 652). -/
def runOut (f : List SamRecord → List SamRecord) (o : Opts) (ts : Nat)
    (recs : List Line) : List Line :=
  pipelineOut f (o.memory / o.threads) ts recs

/-! Generic list lemmas used throughout the development. -/

theorem getD_set_self {α : Type _} {l : List α} {i : Nat} {x d : α} (h : i < l.length) :
    (l.set i x).getD i d = x := by
  simp [List.getD_eq_getElem?_getD, List.getElem?_set, h]

theorem getD_set_ne {α : Type _} {l : List α} {i j : Nat} {x d : α} (h : i ≠ j) :
    (l.set i x).getD j d = l.getD j d := by
  simp [List.getD_eq_getElem?_getD, List.getElem?_set, h]

theorem getD_drop_add {α : Type _} {l : List α} {n m : Nat} {d : α} :
    (l.drop n).getD m d = l.getD (n + m) d := by
  simp [List.getD_eq_getElem?_getD, List.getElem?_drop]

theorem getD_append_lt {α : Type _} {l l2 : List α} {n : Nat} {d : α} (h : n < l.length) :
    (l ++ l2).getD n d = l.getD n d :=
  List.getD_append l l2 d n h

/-! Worker-side loading lemmas. -/

theorem foldl_load_sam_cur (bs : List Nat) (file : List Line) (st : LoadState) :
    (file.foldl (loadStep bs) st).sam_cur = st.sam_cur + (file.map fun l => l.w).sum := by
  induction file generalizing st with
  | nil => simp
  | cons l rest ih =>
    rw [List.foldl_cons, ih]
    simp [loadStep]
    omega

/-- Arena cursor after loading a bucket file: the plain byte sum; there is no
failure path and no bound check in the source. -/
theorem loadBlock_sam_cur (bs : List Nat) (ns : Nat) (file : List Line) :
    (loadBlock bs ns file).sam_cur = (file.map fun l => l.w).sum := by
  simp [loadBlock, foldl_load_sam_cur]

theorem loadStep_subs_getD (bs : List Nat) (st : LoadState) (l : Line) (i : Nat) :
    ∃ u, (loadStep bs st l).subs.getD i [] = st.subs.getD i [] ++ u := by
  by_cases hlt : bs.getD (lineKey l / interval) 0 < st.subs.length
  · by_cases heq : bs.getD (lineKey l / interval) 0 = i
    · refine ⟨[⟨(st.subs.getD 0 []).length, lineKey l, l⟩], ?_⟩
      simp only [loadStep]
      rw [heq] at hlt ⊢
      rw [getD_set_self hlt]
    · refine ⟨[], ?_⟩
      simp only [loadStep, List.append_nil]
      exact getD_set_ne heq
  · refine ⟨[], ?_⟩
    simp only [loadStep, List.append_nil]
    rw [List.set_eq_of_length_le (Nat.le_of_not_lt hlt)]

theorem foldl_load_subs_extend (bs : List Nat) (file : List Line) (st : LoadState) (i : Nat) :
    ∃ t, (file.foldl (loadStep bs) st).subs.getD i [] = st.subs.getD i [] ++ t := by
  induction file generalizing st with
  | nil => exact ⟨[], by simp⟩
  | cons l rest ih =>
    obtain ⟨u, hu⟩ := loadStep_subs_getD bs st l i
    obtain ⟨t, ht⟩ := ih (loadStep bs st l)
    exact ⟨u ++ t, by rw [List.foldl_cons, ht, hu, List.append_assoc]⟩

/-! Header-parsing lemmas (component 4.A). -/

theorem processHeaderFrom_error (ls : List SQLine) (st : HeaderState)
    (h : ∃ l ∈ ls, l.f1.length ≤ 3 ∨ l.f2.length ≤ 3) :
    processHeaderFrom st ls = Except.error () := by
  induction ls generalizing st with
  | nil => simp at h
  | cons a t ih =>
    rcases h with ⟨l, hl, hbad⟩
    rcases List.mem_cons.mp hl with rfl | hl2
    · rcases hbad with h1 | h2
      · simp [processHeaderFrom, headerSQStep, h1]
      · by_cases h1 : l.f1.length ≤ 3
        · simp [processHeaderFrom, headerSQStep, h1]
        · simp [processHeaderFrom, headerSQStep, h1, h2]
    · by_cases h1 : a.f1.length ≤ 3
      · simp [processHeaderFrom, headerSQStep, h1]
      · by_cases h2 : a.f2.length ≤ 3
        · simp [processHeaderFrom, headerSQStep, h1, h2]
        · simp only [processHeaderFrom, headerSQStep, if_neg h1, if_neg h2]
          exact ih _ ⟨l, hl2, hbad⟩

theorem processHeaderFrom_ok (ls : List SQLine) (st : HeaderState)
    (h : ∀ l ∈ ls, 3 < l.f1.length ∧ 3 < l.f2.length) :
    processHeaderFrom st ls
      = Except.ok ⟨st.contig2pos ++ refTableFrom st.size_sofar ls,
          totalLenFrom st.size_sofar ls⟩ := by
  induction ls generalizing st with
  | nil => simp [processHeaderFrom, refTableFrom, totalLenFrom]
  | cons a t ih =>
    obtain ⟨h1, h2⟩ := h a (List.mem_cons_self a t)
    simp only [processHeaderFrom, headerSQStep, if_neg (by omega : ¬ a.f1.length ≤ 3),
      if_neg (by omega : ¬ a.f2.length ≤ 3)]
    rw [ih _ fun l hl => h l (List.mem_cons_of_mem a hl)]
    simp [refTableFrom, totalLenFrom]

theorem refTableFrom_getD (ls : List SQLine) (off i : Nat) (h : i < ls.length) :
    (refTableFrom off ls).getD i ("", 0)
      = ((ls.getD i default).f1.drop 3,
         off + ((ls.take i).map fun l => strtolNat (l.f2.drop 3)).sum) := by
  induction ls generalizing off i with
  | nil => simp at h
  | cons a t ih =>
    cases i with
    | zero => simp [refTableFrom]
    | succ n =>
      simp only [refTableFrom, List.getD_cons_succ, List.take_succ_cons, List.map_cons,
        List.sum_cons]
      rw [ih _ _ (by simpa using h)]
      refine congrArg _ ?_
      omega

/-- Claim C7: a header `@SQ` declaration whose name (`SN:`) or length (`LN:`)
field has length at most 3 makes pass 1 throw the fatal `MalformedHeader`
error; when every declaration is well-formed, processing succeeds and maps
each contig name to the cumulative length of all previously declared
references. -/
theorem claim_C7 (ls : List SQLine) :
    ((∃ l ∈ ls, l.f1.length ≤ 3 ∨ l.f2.length ≤ 3) → processHeader ls = Except.error ())
    ∧ ((∀ l ∈ ls, 3 < l.f1.length ∧ 3 < l.f2.length) →
        processHeader ls = Except.ok ⟨refTableFrom 0 ls, totalLenFrom 0 ls⟩
        ∧ ∀ i, i < ls.length → (refTableFrom 0 ls).getD i ("", 0)
            = ((ls.getD i default).f1.drop 3,
               ((ls.take i).map fun l => strtolNat (l.f2.drop 3)).sum)) := by
  constructor
  · intro h
    exact processHeaderFrom_error ls _ h
  · intro h
    refine ⟨by simpa [processHeader] using processHeaderFrom_ok ls ⟨[], 0⟩ h, fun i hi => ?_⟩
    simpa using refTableFrom_getD ls 0 i hi

/-- Witness for C7 at concrete headers: `SN:` of length 3 is fatal, and two
well-formed declarations `SN:c1 LN:5`, `SN:c2 LN:7` give offsets 0 and 5 and
total length 12. -/
theorem claim_C7_witness :
    processHeader [⟨"SN:", "LN:5"⟩] = Except.error ()
    ∧ processHeader [⟨"SN:c1", "LN:5"⟩, ⟨"SN:c2", "LN:7"⟩]
        = Except.ok ⟨refTableFrom 0 [⟨"SN:c1", "LN:5"⟩, ⟨"SN:c2", "LN:7"⟩],
            totalLenFrom 0 [⟨"SN:c1", "LN:5"⟩, ⟨"SN:c2", "LN:7"⟩]⟩ :=
  ⟨(claim_C7 [⟨"SN:", "LN:5"⟩]).1 ⟨⟨"SN:", "LN:5"⟩, by decide⟩,
   ((claim_C7 [⟨"SN:c1", "LN:5"⟩, ⟨"SN:c2", "LN:7"⟩]).2 (by decide)).1⟩

/-- Claim C6 (code bug): `thread_worker` copies each bucket line into the
per-worker slab `sam = new char[opt_memory_per_thread]` via `strcpy` and
advances `sam_cur` with no bound check: loading is a total function whose
arena cursor is the plain byte sum of the file, so a bucket whose line bytes
exceed the budget (here 16 bytes against a budget of 10) completes without
any `ArenaOverflow` failure and the cursor runs past the slab. -/
theorem claim_C6 :
    (∀ bs ns file, (loadBlock bs ns file).sam_cur = (file.map fun l => l.w).sum)
    ∧ (loadBlock [0] 1 [⟨some 0, 16, 0⟩]).sam_cur = 16
    ∧ 10 < (loadBlock [0] 1 [⟨some 0, 16, 0⟩]).sam_cur :=
  ⟨loadBlock_sam_cur, by decide, by decide⟩

/-- Claim C2 (code bug): pass 3 assigns `read_id = samRecords->size()`, the
length of sub-bucket 0, to every record whatever sub-bucket it lands in.  In
a block with several sub-buckets (10000 or more planned lines), two records
with equal keys whose bin carries sub-bucket index 1 both receive arrival
index 0 when they are loaded before any sub-bucket-0 record, however the rest
of the bucket file continues; `SamRecord_cmp` then considers them equivalent
in both directions, so the unstable `std::sort` is free to emit them in
either order and the input-order tie-break is not enforced. -/
theorem claim_C2 (rest : List Line) :
    (((loadBlock [0, 1] 2 (⟨some 1030, 9, 0⟩ :: ⟨some 1030, 9, 1⟩ :: rest)).subs.getD 1 []).take 2
        = [⟨0, 1030, ⟨some 1030, 9, 0⟩⟩, ⟨0, 1030, ⟨some 1030, 9, 1⟩⟩])
    ∧ SamRecord_cmp ⟨0, 1030, ⟨some 1030, 9, 0⟩⟩ ⟨0, 1030, ⟨some 1030, 9, 1⟩⟩ = false
    ∧ SamRecord_cmp ⟨0, 1030, ⟨some 1030, 9, 1⟩⟩ ⟨0, 1030, ⟨some 1030, 9, 0⟩⟩ = false := by
  refine ⟨?_, by decide, by decide⟩
  have hstep : loadBlock [0, 1] 2 (⟨some 1030, 9, 0⟩ :: ⟨some 1030, 9, 1⟩ :: rest)
      = rest.foldl (loadStep [0, 1])
          ⟨[[], [⟨0, 1030, ⟨some 1030, 9, 0⟩⟩, ⟨0, 1030, ⟨some 1030, 9, 1⟩⟩]], 18⟩ := rfl
  obtain ⟨t, ht⟩ := foldl_load_subs_extend [0, 1] rest
    ⟨[[], [⟨0, 1030, ⟨some 1030, 9, 0⟩⟩, ⟨0, 1030, ⟨some 1030, 9, 1⟩⟩]], 18⟩ 1
  rw [hstep, ht]
  rfl

/-- Claim C8 (amended): whenever `main` returns normally the exit code is 0 —
on success, on every user error, and also when `samtools cat` reports a
nonzero status (the failure is only printed); the only nonzero terminations
are aborts from uncaught exceptions, namely a failed `popen` or a malformed
header declaration. -/
theorem claim_C8 (e : RunEnv) :
    (∀ c, mainExit e = ExitOutcome.exits c → c = 0)
    ∧ (mainExit e = ExitOutcome.aborted ↔
        e.argcOne = false ∧ e.missingArg = false ∧ e.badUintArg = false
        ∧ e.unrecognizedOpt = false ∧ e.inputExists = true
        ∧ (e.popenOk = false ∨ e.headerOk = false)) := by
  obtain ⟨a, b, c, d, f, g, h, n⟩ := e
  cases a <;> cases b <;> cases c <;> cases d <;> cases f <;> cases g <;> cases h <;>
    simp [mainExit]

/-- Counterexample for C8 as stated: with every argument and file check
passing and the concatenator returning status 1 — a collaborator failing
mid-run — the process still exits 0. -/
theorem claim_C8_counterexample :
    ¬ ∀ e : RunEnv, e.concatStatus ≠ 0 → mainExit e ≠ ExitOutcome.exits 0 := by
  intro h
  exact h ⟨false, false, false, false, true, true, true, 1⟩ (by decide) (by decide)

/-- Witness for C8 at a concrete environment with a failed concatenation. -/
theorem claim_C8_witness : (0 : Nat) = 0 :=
  (claim_C8 ⟨false, false, false, false, true, true, true, 1⟩).1 0 (by decide)

/-- Claim C10: the `-l` compression level is parsed and clamped to at most 9
but read nowhere else; every collaborator command line (decoder, encoder,
concatenator) and the pipeline output are identical across runs that differ
only in the compression level. -/
theorem claim_C10 (o : Opts) (c v : Nat) :
    opt_compression_parse v ≤ 9
    ∧ decoderCmd (setCompression o c) = decoderCmd o
    ∧ (∀ base b, encoderCmd (setCompression o c) base b = encoderCmd o base b)
    ∧ (∀ n, concatCmd (setCompression o c) n = concatCmd o n)
    ∧ ∀ f ts recs, runOut f (setCompression o c) ts recs = runOut f o ts recs :=
  ⟨Nat.min_le_left 9 v, rfl, fun _ _ => rfl, fun _ => rfl, fun _ _ _ => rfl⟩

/-! Planner lemmas (component 4.C). -/

theorem getD_append_last {α : Type _} (l : List α) (v d : α) :
    (l ++ [v]).getD l.length d = v := by
  rw [List.getD_append_right l [v] d l.length (Nat.le_refl _)]
  simp

theorem blockWeight_append (l1 l2 : List table_records) :
    blockWeight (l1 ++ l2) = blockWeight l1 + blockWeight l2 := by
  simp [blockWeight]

theorem blockNumLines_append (l1 l2 : List table_records) :
    blockNumLines (l1 ++ l2) = blockNumLines l1 + blockNumLines l2 := by
  simp [blockNumLines]

theorem planInv_init (B : Nat) : PlanInv B planInit := by
  refine ⟨rfl, rfl, rfl, ?_, ?_, ?_, ?_, ?_, Or.inl (Nat.zero_le B)⟩ <;>
    simp [planInit]

theorem getD_append_last2 {α : Type _} {l : List α} {n : Nat} (h : n = l.length) (v d : α) :
    (l ++ [v]).getD n d = v := by
  subst h
  exact getD_append_last l v d

theorem planInv_step {B : Nat} {s : PlanState} (tr : table_records) (h : PlanInv B s) :
    PlanInv B (planStep B s tr) := by
  have hlen := h.lenSub
  by_cases hB : B < s.samSize + tr.num_char
  · simp only [planStep, if_pos hB]
    refine ⟨?_, ?_, ?_, ?_, ?_, ?_, ?_, ?_, ?_⟩
    · dsimp only
      simp [hlen]
    · dsimp only
      simp [blockWeight]
    · dsimp only
      simp [blockNumLines]
    · dsimp only
      intro i hi
      simp only [List.length_append, List.length_singleton] at hi ⊢
      by_cases hi2 : i < s.binBlock.length
      · rw [getD_append_lt hi2]
        exact Nat.le_trans (h.bound i hi2) (Nat.le_succ _)
      · have hieq : i = s.binBlock.length := by omega
        subst hieq
        rw [getD_append_last]
    · dsimp only
      intro i j hij hj
      simp only [List.length_append, List.length_singleton] at hj
      by_cases hj2 : j < s.binBlock.length
      · rw [getD_append_lt hj2, getD_append_lt (Nat.lt_of_le_of_lt hij hj2)]
        exact h.mono i j hij hj2
      · have hjeq : j = s.binBlock.length := by omega
        subst hjeq
        rw [getD_append_last]
        by_cases hi2 : i < s.binBlock.length
        · rw [getD_append_lt hi2]
          exact Nat.le_trans (h.bound i hi2) (Nat.le_succ _)
        · have hieq : i = s.binBlock.length := by omega
          subst hieq
          rw [getD_append_last]
    · dsimp only
      intro i j hij hj heq
      simp only [List.length_append, List.length_singleton] at hj
      by_cases hj2 : j < s.binBlock.length
      · rw [getD_append_lt hj2, getD_append_lt (Nat.lt_of_le_of_lt hij hj2)] at heq
        rw [getD_append_lt (hlen ▸ Nat.lt_of_le_of_lt hij hj2), getD_append_lt (hlen ▸ hj2)]
        exact h.subMono i j hij hj2 heq
      · have hjeq : j = s.binBlock.length := by omega
        subst hjeq
        by_cases hi2 : i < s.binBlock.length
        · rw [getD_append_lt hi2, getD_append_last] at heq
          have := h.bound i hi2
          omega
        · have hieq : i = s.binBlock.length := by omega
          subst hieq
          exact Nat.le_refl _
    · dsimp only
      intro i hi
      simp only [List.length_append, List.length_singleton] at hi
      by_cases hi2 : i < s.binBlock.length
      · rw [getD_append_lt hi2, getD_append_lt (hlen ▸ hi2)]
        have hb := h.bound i hi2
        have hblt : s.binBlock.getD i 0 < (s.blocks ++ [s.curBins]).length := by
          simp only [List.length_append, List.length_singleton]
          omega
        rw [@getD_append_lt _ _ [[tr]] _ _ hblt]
        exact h.subBound i hi2
      · have hieq : i = s.binBlock.length := by omega
        subst hieq
        rw [getD_append_last, getD_append_last2 hlen.symm]
        have hlast : (s.blocks ++ [s.curBins] ++ [[tr]]).getD (s.blocks.length + 1) [] = [tr] := by
          have hlen2 : (s.blocks ++ [s.curBins]).length = s.blocks.length + 1 := by simp
          rw [getD_append_last2 hlen2.symm]
        rw [hlast]
        simp [blockNumLines]
    · dsimp only
      intro blk hblk
      rcases List.mem_append.mp hblk with h1 | h2
      · exact h.blocksOK blk h1
      · rw [List.mem_singleton.mp h2]
        exact h.curOK
    · dsimp only
      by_cases hw : tr.num_char ≤ B
      · exact Or.inl (by simpa [blockWeight] using hw)
      · exact Or.inr ⟨tr, rfl, Nat.lt_of_not_le hw⟩
  · simp only [planStep, if_neg hB]
    have hBle : s.samSize + tr.num_char ≤ B := Nat.le_of_not_lt hB
    refine ⟨?_, ?_, ?_, ?_, ?_, ?_, ?_, ?_, ?_⟩
    · dsimp only
      simp [hlen]
    · dsimp only
      simp [blockWeight_append, blockWeight, h.samEq]
    · dsimp only
      simp [blockNumLines_append, blockNumLines, h.linesEq]
    · dsimp only
      intro i hi
      simp only [List.length_append, List.length_singleton] at hi
      by_cases hi2 : i < s.binBlock.length
      · rw [getD_append_lt hi2]
        exact h.bound i hi2
      · have hieq : i = s.binBlock.length := by omega
        subst hieq
        rw [getD_append_last]
    · dsimp only
      intro i j hij hj
      simp only [List.length_append, List.length_singleton] at hj
      by_cases hj2 : j < s.binBlock.length
      · rw [getD_append_lt hj2, getD_append_lt (Nat.lt_of_le_of_lt hij hj2)]
        exact h.mono i j hij hj2
      · have hjeq : j = s.binBlock.length := by omega
        subst hjeq
        rw [getD_append_last]
        by_cases hi2 : i < s.binBlock.length
        · rw [getD_append_lt hi2]
          exact h.bound i hi2
        · have hieq : i = s.binBlock.length := by omega
          subst hieq
          rw [getD_append_last]
    · dsimp only
      intro i j hij hj heq
      simp only [List.length_append, List.length_singleton] at hj
      by_cases hj2 : j < s.binBlock.length
      · rw [getD_append_lt hj2, getD_append_lt (Nat.lt_of_le_of_lt hij hj2)] at heq
        rw [getD_append_lt (hlen ▸ Nat.lt_of_le_of_lt hij hj2), getD_append_lt (hlen ▸ hj2)]
        exact h.subMono i j hij hj2 heq
      · have hjeq : j = s.binBlock.length := by omega
        subst hjeq
        rw [getD_append_last2 hlen.symm]
        by_cases hi2 : i < s.binBlock.length
        · rw [getD_append_lt hi2, getD_append_last] at heq
          rw [getD_append_lt (hlen ▸ hi2)]
          have hsb := h.subBound i hi2
          rw [heq] at hsb
          have hlen2 : (s.blocks ++ [s.curBins]).length = s.blocks.length + 1 := by simp
          rw [getD_append_last2 rfl] at hsb
          refine Nat.le_trans hsb ?_
          rw [← h.linesEq]
          exact Nat.div_le_div_right (Nat.le_add_right _ _)
        · have hieq : i = s.binBlock.length := by omega
          subst hieq
          rw [getD_append_last2 hlen.symm]
    · dsimp only
      intro i hi
      simp only [List.length_append, List.length_singleton] at hi
      by_cases hi2 : i < s.binBlock.length
      · rw [getD_append_lt hi2, getD_append_lt (hlen ▸ hi2)]
        have hb := h.bound i hi2
        by_cases hbl : s.binBlock.getD i 0 < s.blocks.length
        · rw [getD_append_lt hbl]
          have hold := h.subBound i hi2
          rw [getD_append_lt hbl] at hold
          exact hold
        · have hbeq : s.binBlock.getD i 0 = s.blocks.length := by omega
          rw [hbeq, getD_append_last]
          have hold := h.subBound i hi2
          rw [hbeq, getD_append_last] at hold
          refine Nat.le_trans hold (Nat.div_le_div_right ?_)
          rw [blockNumLines_append]
          exact Nat.le_add_right _ _
      · have hieq : i = s.binBlock.length := by omega
        subst hieq
        rw [getD_append_last, getD_append_last2 hlen.symm, getD_append_last,
          blockNumLines_append, h.linesEq]
        simp [blockNumLines]
    · dsimp only
      exact h.blocksOK
    · dsimp only
      refine Or.inl ?_
      rw [blockWeight_append]
      have hw1 : blockWeight [tr] = tr.num_char := by simp [blockWeight]
      rw [hw1, ← h.samEq]
      exact hBle

theorem planInv_foldl (B : Nat) (bins : List table_records) (s : PlanState)
    (h : PlanInv B s) : PlanInv B (bins.foldl (planStep B) s) := by
  induction bins generalizing s with
  | nil => exact h
  | cons tr rest ih => exact ih _ (planInv_step tr h)

theorem planInv_fold (B : Nat) (bins : List table_records) : PlanInv B (planFold B bins) :=
  planInv_foldl B bins planInit (planInv_init B)

theorem foldl_plan_binBlock_length (B : Nat) (bins : List table_records) (s : PlanState) :
    (bins.foldl (planStep B) s).binBlock.length = s.binBlock.length + bins.length := by
  induction bins generalizing s with
  | nil => simp
  | cons tr rest ih =>
    rw [List.foldl_cons, ih]
    by_cases hB : B < s.samSize + tr.num_char <;> simp [planStep, hB] <;> omega

theorem planFold_binBlock_length (B : Nat) (bins : List table_records) :
    (planFold B bins).binBlock.length = bins.length := by
  simpa [planInit] using foldl_plan_binBlock_length B bins planInit

/-- Claim C4 (amended): every bucket emitted by the planner has total byte
weight at most the per-worker budget B, except buckets consisting of a single
histogram bin whose own weight exceeds B — of which there may be several, one
per oversized bin, not at most one. -/
theorem claim_C4 (B ts : Nat) (recs : List Line) (blk : List table_records)
    (h : blk ∈ blocksOf B ts recs) :
    blockWeight blk ≤ B ∨ ∃ tr, blk = [tr] ∧ B < tr.num_char := by
  have hinv := planInv_fold B (alignedBinsOf B ts recs)
  rcases List.mem_append.mp h with h1 | h2
  · exact hinv.blocksOK blk h1
  · rw [List.mem_singleton.mp h2]
    exact hinv.curOK

/-- Counterexample for C4 as stated: with budget 3, table_size 3 and two
aligned records of weight 5 at keys 0 and 1024 (two bins of weight 5 each),
the planner emits two distinct buckets whose weight exceeds the budget — more
than the single exception the claim allows. -/
theorem claim_C4_counterexample :
    ((blocksOf 3 3 [⟨some 0, 5, 0⟩, ⟨some 1024, 5, 1⟩]).filter
        fun blk => decide (3 < blockWeight blk)).length = 2 := by decide

/-- Witness for the amended C4 at the same concrete plan. -/
theorem claim_C4_witness :
    blockWeight [(⟨1, 5⟩ : table_records)] ≤ 3
    ∨ ∃ tr, [(⟨1, 5⟩ : table_records)] = [tr] ∧ 3 < tr.num_char :=
  claim_C4 3 3 [⟨some 0, 5, 0⟩, ⟨some 1024, 5, 1⟩] [⟨1, 5⟩] (by decide)

/-! Histogram lemmas: shape of the pass-1 table and its tail region. -/

theorem bumpBin_length (t : List table_records) (i w : Nat) :
    (bumpBin t i w).length = t.length := by
  simp [bumpBin]

theorem tailGrow_length (B : Nat) (t : List table_records) (w : Nat) :
    t.length ≤ (tailGrow B t w).length := by
  rw [tailGrow]
  split <;> simp

theorem tailBinStep_length (B : Nat) (t : List table_records) (w : Nat) :
    t.length ≤ (tailBinStep B t w).length := by
  rw [tailBinStep, bumpBin_length]
  exact tailGrow_length B t w

theorem pass1Step_length (B : Nat) (t : List table_records) (l : Line) :
    t.length ≤ (pass1Step B t l).length := by
  cases hk : l.key with
  | some k => simp [pass1Step, hk, bumpBin_length]
  | none =>
    simp only [pass1Step, hk]
    exact tailBinStep_length B t l.w

theorem foldl_pass1_length (B : Nat) (recs : List Line) (t : List table_records) :
    t.length ≤ (recs.foldl (pass1Step B) t).length := by
  induction recs generalizing t with
  | nil => exact Nat.le_refl _
  | cons l rest ih => exact Nat.le_trans (pass1Step_length B t l) (ih _)

theorem mkTable_length (B ts : Nat) (recs : List Line) :
    ts ≤ (mkTable B ts recs).length := by
  simpa using foldl_pass1_length B recs (List.replicate ts ⟨0, 0⟩)

theorem sum_set_add {l : List Nat} {i : Nat} {x : Nat} (h : i < l.length) :
    (l.set i x).sum + l.getD i 0 = l.sum + x := by
  induction l generalizing i with
  | nil => simp at h
  | cons a t ih =>
    cases i with
    | zero =>
      simp only [List.set_cons_zero, List.sum_cons, List.getD_cons_zero]
      omega
    | succ n =>
      have hn : n < t.length := by simpa using h
      simp only [List.set_cons_succ, List.sum_cons, List.getD_cons_succ]
      have := ih hn
      omega

theorem bumpBin_append_last (t : List table_records) (z : table_records) (w : Nat) :
    bumpBin (t ++ [z]) ((t ++ [z]).length - 1) w
      = t ++ [⟨z.num_lines + 1, z.num_char + w⟩] := by
  have hlen : (t ++ [z]).length - 1 = t.length := by simp
  rw [bumpBin, hlen, getD_append_last, List.set_append_right _ _ (Nat.le_refl _)]
  simp

theorem getD_last_drop (t : List table_records) (n : Nat) (h : n + 1 ≤ t.length) :
    (t.drop n).getD ((t.drop n).length - 1) default = t.getD (t.length - 1) default := by
  rw [getD_drop_add]
  refine congrArg (fun i => t.getD i default) ?_
  rw [List.length_drop]
  omega

theorem tailBinStep_drop (B w : Nat) (t : List table_records) (n : Nat)
    (h : n + 1 ≤ t.length) :
    (tailBinStep B t w).drop n = tailBinStep B (t.drop n) w := by
  have hcond := getD_last_drop t n h
  by_cases hB : B < (t.getD (t.length - 1) default).num_char + w
  · have hg : tailGrow B t w = t ++ [⟨0, 0⟩] := by rw [tailGrow, if_pos hB]
    have hg2 : tailGrow B (t.drop n) w = t.drop n ++ [⟨0, 0⟩] := by
      rw [tailGrow, hcond, if_pos hB]
    rw [tailBinStep, tailBinStep, hg, hg2, bumpBin_append_last, bumpBin_append_last,
      List.drop_append_of_le_length (by omega)]
  · have hg : tailGrow B t w = t := by rw [tailGrow, if_neg hB]
    have hg2 : tailGrow B (t.drop n) w = t.drop n := by
      rw [tailGrow, hcond, if_neg hB]
    rw [tailBinStep, tailBinStep, hg, hg2, bumpBin, bumpBin, List.drop_set,
      if_neg (by omega : ¬ t.length - 1 < n)]
    have hidx : t.length - 1 - n = (t.drop n).length - 1 := by
      rw [List.length_drop]
      omega
    rw [hidx, hcond]

theorem foldl_pass1_drop (B ts : Nat) (recs : List Line) (hts : 1 ≤ ts) :
    ∀ t : List table_records, ts ≤ t.length →
    (∀ l ∈ recs, keyInRangeB ts l = true) →
    (recs.foldl (pass1Step B) t).drop (ts - 1)
      = recs.foldl (tailOnlyStep B) (t.drop (ts - 1)) := by
  induction recs with
  | nil => intro t ht hk2; rfl
  | cons l rest ih =>
    intro t ht hk2
    rw [List.foldl_cons, List.foldl_cons]
    have hl := hk2 l (List.mem_cons_self l rest)
    have hrest : ∀ x ∈ rest, keyInRangeB ts x = true :=
      fun x hx => hk2 x (List.mem_cons_of_mem l hx)
    cases hkey : l.key with
    | some k =>
      have hkr : k / interval < ts - 1 := by
        simpa [keyInRangeB, hkey] using hl
      have hstep : pass1Step B t l = bumpBin t (k / interval) l.w := by
        simp [pass1Step, hkey]
      have hstep2 : tailOnlyStep B (t.drop (ts - 1)) l = t.drop (ts - 1) := by
        simp [tailOnlyStep, hkey]
      rw [hstep, hstep2, ih _ (by rw [bumpBin_length]; exact ht) hrest]
      have hdrop : (bumpBin t (k / interval) l.w).drop (ts - 1) = t.drop (ts - 1) := by
        rw [bumpBin, List.drop_set, if_pos hkr]
      rw [hdrop]
    | none =>
      have hstep : pass1Step B t l = tailBinStep B t l.w := by
        simp [pass1Step, hkey]
      have hstep2 : tailOnlyStep B (t.drop (ts - 1)) l = tailBinStep B (t.drop (ts - 1)) l.w := by
        simp [tailOnlyStep, hkey]
      rw [hstep, hstep2, ih _ (Nat.le_trans ht (tailBinStep_length B t l.w)) hrest,
        tailBinStep_drop B l.w t (ts - 1) (by omega)]

/-- Tail region of the pipeline histogram equals its standalone computation. -/
theorem mkTable_drop (B ts : Nat) (recs : List Line) (hts : 1 ≤ ts)
    (hk : KeysBounded ts recs) :
    (mkTable B ts recs).drop (ts - 1) = tailPartFold B recs := by
  have h0 : (List.replicate ts (⟨0, 0⟩ : table_records)).drop (ts - 1) = [⟨0, 0⟩] := by
    rw [List.drop_replicate]
    have hd : ts - (ts - 1) = 1 := by omega
    rw [hd, List.replicate_one]
  rw [mkTable, foldl_pass1_drop B ts recs hts _ (by simp) hk, h0, tailPartFold]

theorem tailPartInv_step (B w cnt : Nat) (t : List table_records) (h : TailPartInv B t cnt) :
    TailPartInv B (tailBinStep B t w) (cnt + 1) := by
  by_cases hB : B < (t.getD (t.length - 1) default).num_char + w
  · have hg : tailGrow B t w = t ++ [⟨0, 0⟩] := by rw [tailGrow, if_pos hB]
    rw [tailBinStep, hg, bumpBin_append_last]
    refine ⟨by simp, ?_, ?_, ?_⟩
    · intro j hj1 hjlen
      simp only [List.length_append, List.length_singleton] at hjlen
      by_cases hj2 : j < t.length
      · rw [getD_append_lt hj2]
        exact h.ge1 j hj1 hj2
      · have hje : j = t.length := by omega
        subst hje
        rw [getD_append_last]
    · simp only [List.map_append, List.sum_append, h.sumEq, List.map_cons, List.map_nil,
        List.sum_cons, List.sum_nil]
      omega
    · intro tr htr
      rcases List.mem_append.mp htr with h1 | h2
      · exact h.binOK tr h1
      · rw [List.mem_singleton.mp h2]
        by_cases hw : w ≤ B
        · exact Or.inl (by simpa using hw)
        · exact Or.inr ⟨by simp, by simpa using Nat.lt_of_not_le hw⟩
  · have hg : tailGrow B t w = t := by rw [tailGrow, if_neg hB]
    have hlast : t.length - 1 < t.length := by
      have := h.nonempty
      omega
    rw [tailBinStep, hg, bumpBin]
    refine ⟨by simpa using h.nonempty, ?_, ?_, ?_⟩
    · intro j hj1 hjlen
      rw [List.length_set] at hjlen
      by_cases hj2 : j = t.length - 1
      · subst hj2
        rw [getD_set_self hlast]
        simp
      · rw [getD_set_ne (fun hx => hj2 hx.symm)]
        exact h.ge1 j hj1 hjlen
    · rw [List.map_set]
      dsimp only
      have hs := sum_set_add (x := ((t.getD (t.length - 1) default).num_lines + 1))
        (by rw [List.length_map]; exact hlast :
          t.length - 1 < (t.map fun tr => tr.num_lines).length)
      have hget : (t.map fun tr => tr.num_lines).getD (t.length - 1) 0
          = (t.getD (t.length - 1) default).num_lines := by
        rw [List.getD_eq_getElem?_getD, List.getD_eq_getElem?_getD, List.getElem?_map,
          List.getElem?_eq_getElem hlast]
        rfl
      rw [hget] at hs
      have := h.sumEq
      omega
    · intro tr htr
      rcases List.mem_or_eq_of_mem_set htr with h1 | h2
      · exact h.binOK tr h1
      · subst h2
        exact Or.inl (by simpa using Nat.le_of_not_lt hB)

theorem tailPartInv_foldl (B : Nat) (recs : List Line) :
    ∀ (t : List table_records) (cnt : Nat), TailPartInv B t cnt →
    TailPartInv B (recs.foldl (tailOnlyStep B) t)
      (cnt + (recs.filter fun l => l.key.isNone).length) := by
  induction recs with
  | nil => intro t cnt h; simpa using h
  | cons l rest ih =>
    intro t cnt h
    rw [List.foldl_cons]
    cases hkey : l.key with
    | some k =>
      have hstep : tailOnlyStep B t l = t := by simp [tailOnlyStep, hkey]
      have hflt : ((l :: rest).filter fun l2 => l2.key.isNone)
          = rest.filter fun l2 => l2.key.isNone := by
        simp [List.filter_cons, hkey]
      rw [hstep, hflt]
      exact ih t cnt h
    | none =>
      have hstep : tailOnlyStep B t l = tailBinStep B t l.w := by
        simp [tailOnlyStep, hkey]
      have hflt : ((l :: rest).filter fun l2 => l2.key.isNone).length
          = (rest.filter fun l2 => l2.key.isNone).length + 1 := by
        simp [List.filter_cons, hkey]
      rw [hstep, hflt]
      have h2 := ih (tailBinStep B t l.w) (cnt + 1) (tailPartInv_step B l.w cnt t h)
      have hc : cnt + 1 + (rest.filter fun l2 => l2.key.isNone).length
          = cnt + ((rest.filter fun l2 => l2.key.isNone).length + 1) := by omega
      rw [hc] at h2
      exact h2

theorem tailPartInv_init (B : Nat) : TailPartInv B [⟨0, 0⟩] 0 := by
  refine ⟨by simp, ?_, by simp, ?_⟩
  · intro j hj1 hjlen
    simp at hjlen
    omega
  · intro tr htr
    rw [List.mem_singleton.mp htr]
    exact Or.inl (Nat.zero_le B)

theorem tailBins_inv (B ts : Nat) (recs : List Line) (hts : 1 ≤ ts)
    (hk : KeysBounded ts recs) :
    TailPartInv B (tailBinsOf B ts recs) (recs.filter fun l => l.key.isNone).length := by
  rw [tailBinsOf, mkTable_drop B ts recs hts hk, tailPartFold]
  simpa using tailPartInv_foldl B recs [⟨0, 0⟩] 0 (tailPartInv_init B)

/-- Claim C5 (amended): the tail is always split into one or more unaligned
buckets — at least one even when the input has no unaligned record (the
reserved tail bin always becomes a bypass bucket); every unaligned bucket has
byte weight at most B except buckets holding exactly one record whose own
weight exceeds B; and the bucket line counts partition the unaligned
records. -/
theorem claim_C5 (B ts : Nat) (recs : List Line) (hts : 1 ≤ ts)
    (hk : KeysBounded ts recs) :
    1 ≤ numTailOf B ts recs
    ∧ (∀ tr ∈ tailBinsOf B ts recs, tr.num_char ≤ B ∨ (tr.num_lines = 1 ∧ B < tr.num_char))
    ∧ ((tailBinsOf B ts recs).map fun tr => tr.num_lines).sum
        = (recs.filter fun l => l.key.isNone).length := by
  have h := tailBins_inv B ts recs hts hk
  exact ⟨h.nonempty, h.binOK, h.sumEq⟩

/-- Counterexample for C5 as stated, refuting both conjuncts of the claim:
(i) an input with one aligned record and no unaligned record at all still
makes the planner emit one (empty) unaligned bucket — the reserved tail bin
`table[table_size - 1]` always enters the loop of lines 482-486; (ii) with
budget 10, an input whose single unaligned record has byte weight 16 puts
that one record into a fresh tail bin of weight 16 (lines 242-250), an
unaligned bucket whose byte weight exceeds the budget. -/
theorem claim_C5_counterexample :
    ((([⟨some 0, 5, 0⟩] : List Line).filter fun l => l.key.isNone) = []
      ∧ numTailOf 100 2 [⟨some 0, 5, 0⟩] = 1)
    ∧ (([⟨none, 16, 0⟩] : List Line).filter fun l => l.key.isNone).length = 1
    ∧ 10 < ((tailBinsOf 10 2 [⟨none, 16, 0⟩]).getD 1 default).num_char
    ∧ ((tailBinsOf 10 2 [⟨none, 16, 0⟩]).getD 1 default).num_lines = 1 := by decide

/-- Witness for the amended C5 at a two-record input with one unaligned
record. -/
theorem claim_C5_witness :
    1 ≤ numTailOf 100 2 [⟨some 0, 5, 0⟩, ⟨none, 7, 1⟩]
    ∧ (∀ tr ∈ tailBinsOf 100 2 [⟨some 0, 5, 0⟩, ⟨none, 7, 1⟩],
        tr.num_char ≤ 100 ∨ (tr.num_lines = 1 ∧ 100 < tr.num_char))
    ∧ ((tailBinsOf 100 2 [⟨some 0, 5, 0⟩, ⟨none, 7, 1⟩]).map fun tr => tr.num_lines).sum
        = (([⟨some 0, 5, 0⟩, ⟨none, 7, 1⟩] : List Line).filter fun l => l.key.isNone).length :=
  claim_C5 100 2 [⟨some 0, 5, 0⟩, ⟨none, 7, 1⟩] (by decide) (by decide)

/-! Worker loading lemmas: projection of the sub-bucket vectors. -/

theorem loadStep_subs_length (bs : List Nat) (st : LoadState) (l : Line) :
    (loadStep bs st l).subs.length = st.subs.length := by
  simp [loadStep]

theorem foldl_load_subs_length (bs : List Nat) (file : List Line) (st : LoadState) :
    (file.foldl (loadStep bs) st).subs.length = st.subs.length := by
  induction file generalizing st with
  | nil => rfl
  | cons l rest ih => rw [List.foldl_cons, ih, loadStep_subs_length]

theorem foldl_load_proj (bs : List Nat) (file : List Line) (st : LoadState)
    (hsubs : ∀ l ∈ file, bs.getD (lineKey l / interval) 0 < st.subs.length) (i : Nat) :
    ((file.foldl (loadStep bs) st).subs.getD i []).map (fun r => (r.pos, r.line))
      = (st.subs.getD i []).map (fun r => (r.pos, r.line))
        ++ (file.filter fun l => bs.getD (lineKey l / interval) 0 == i).map
            fun l => (lineKey l, l) := by
  induction file generalizing st with
  | nil => simp
  | cons l rest ih =>
    rw [List.foldl_cons]
    have hl := hsubs l (List.mem_cons_self l rest)
    have hrest : ∀ x ∈ rest, bs.getD (lineKey x / interval) 0 < (loadStep bs st l).subs.length := by
      intro x hx
      rw [loadStep_subs_length]
      exact hsubs x (List.mem_cons_of_mem l hx)
    rw [ih (loadStep bs st l) hrest]
    by_cases heq : bs.getD (lineKey l / interval) 0 = i
    · have hget : (loadStep bs st l).subs.getD i []
          = st.subs.getD i [] ++ [⟨(st.subs.getD 0 []).length, lineKey l, l⟩] := by
        simp only [loadStep]
        rw [← heq]
        exact getD_set_self hl
      rw [hget, List.filter_cons]
      rw [if_pos (by simpa using heq)]
      simp
    · have hget : (loadStep bs st l).subs.getD i [] = st.subs.getD i [] := by
        simp only [loadStep]
        exact getD_set_ne heq
      rw [hget, List.filter_cons, if_neg (by simpa using heq)]

theorem loadBlock_mem (bs : List Nat) (ns : Nat) (file : List Line)
    (hsubs : ∀ l ∈ file, bs.getD (lineKey l / interval) 0 < ns) (i : Nat) (r : SamRecord)
    (hr : r ∈ (loadBlock bs ns file).subs.getD i []) :
    r.line ∈ file ∧ r.pos = lineKey r.line ∧ bs.getD (lineKey r.line / interval) 0 = i := by
  have hinit : ((List.replicate ns ([] : List SamRecord)).getD i []) = [] := by
    rw [List.getD_eq_getElem?_getD, List.getElem?_replicate]
    split <;> rfl
  have hproj := foldl_load_proj bs file ⟨List.replicate ns [], 0⟩ (by simpa using hsubs) i
  rw [loadBlock] at hr
  have hmem : (r.pos, r.line)
      ∈ ((file.filter fun l => bs.getD (lineKey l / interval) 0 == i).map
          fun l => (lineKey l, l)) := by
    have hx : (r.pos, r.line)
        ∈ (((file.foldl (loadStep bs) ⟨List.replicate ns [], 0⟩).subs.getD i []).map
            fun r2 => (r2.pos, r2.line)) :=
      List.mem_map.mpr ⟨r, hr, rfl⟩
    rw [hproj] at hx
    simpa [hinit] using hx
  rcases List.mem_map.mp hmem with ⟨l, hlf, hpair⟩
  rcases List.mem_filter.mp hlf with ⟨hlr, hcond⟩
  have hline : r.line = l := (Prod.mk.injEq _ _ _ _ ▸ hpair.symm).2
  have hpos : r.pos = lineKey l := (Prod.mk.injEq _ _ _ _ ▸ hpair.symm).1
  subst hline
  exact ⟨hlr, hpos, by simpa using hcond⟩

/-! Pass-2 unaligned routing lemmas. -/

theorem foldl_tail_out_map (recs : List Line) (st : TailState) :
    ((recs.foldl tailStep st).out).map (fun p => p.2)
      = st.out.map (fun p => p.2) ++ recs.filter fun l => l.key.isNone := by
  induction recs generalizing st with
  | nil => simp
  | cons l rest ih =>
    rw [List.foldl_cons]
    cases hkey : l.key with
    | some k =>
      have hstep : tailStep st l = st := by simp [tailStep, hkey]
      rw [hstep, ih, List.filter_cons]
      simp [hkey]
    | none =>
      have hstep : tailStep st l = tailPush st l := by simp [tailStep, hkey]
      rw [hstep, ih, List.filter_cons]
      simp [tailPush, hkey]

theorem foldl_tail_out_none (recs : List Line) (st : TailState)
    (h : ∀ p ∈ st.out, p.2.key = none) :
    ∀ p ∈ (recs.foldl tailStep st).out, p.2.key = none := by
  induction recs generalizing st with
  | nil => exact h
  | cons l rest ih =>
    rw [List.foldl_cons]
    cases hkey : l.key with
    | some k =>
      have hstep : tailStep st l = st := by simp [tailStep, hkey]
      rw [hstep]
      exact ih st h
    | none =>
      have hstep : tailStep st l = tailPush st l := by simp [tailStep, hkey]
      rw [hstep]
      refine ih _ ?_
      intro p hp
      rcases List.mem_append.mp hp with h1 | h2
      · exact h p h1
      · rw [List.mem_singleton.mp h2]
        exact hkey

theorem sum_drop_succ {l : List Nat} {i : Nat} (h : i < l.length) :
    (l.drop i).sum = l.getD i 0 + (l.drop (i + 1)).sum := by
  rw [List.drop_eq_getElem_cons h, List.sum_cons, List.getD_eq_getElem?_getD,
    List.getElem?_eq_getElem h]
  rfl

theorem tailRouteInv_step (m : Nat) (st : TailState) (l : Line) (hkey : l.key = none)
    (rem : Nat) (h : TailRouteInv m st (rem + 1)) :
    TailRouteInv m (tailStep st l) rem := by
  have hstep : tailStep st l = tailPush st l := by simp [tailStep, hkey]
  rw [hstep]
  have hitr := h.itr_lt
  have hlenc := h.len_eq
  have hsum := h.sum_eq
  rw [sum_drop_succ (by omega)] at hsum
  by_cases hz : st.counts.getD st.unalign_itr 0 = 0
  · have hdest : tailDest st = st.unalign_itr + 1 := by
      rw [tailDest, if_pos (beq_iff_eq.mpr hz)]
    have hlt2 : st.unalign_itr + 1 < m := by
      by_contra hge
      have hnil : st.counts.drop (st.unalign_itr + 1) = [] :=
        List.drop_eq_nil_of_le (by omega)
      rw [hnil, hz] at hsum
      simp at hsum
    have hc1 : 1 ≤ st.counts.getD (st.unalign_itr + 1) 0 :=
      h.later_ge1 (st.unalign_itr + 1) (Nat.lt_succ_self _) hlt2
    have hsum2 := sum_drop_succ (l := st.counts) (i := st.unalign_itr + 1) (by omega)
    refine ⟨?_, ?_, ?_, ?_, ?_, ?_, ?_⟩
    · rw [tailPush, hdest]
      exact hlt2
    · rw [tailPush, hdest]
      simp [hlenc]
    · rw [tailPush, hdest]
      dsimp only
      rw [sum_drop_succ (by rw [List.length_set]; omega),
        getD_set_self (by omega), List.drop_set, if_pos (Nat.lt_succ_self _)]
      omega
    · intro j hj1 hj2
      rw [tailPush, hdest] at hj1 ⊢
      dsimp only at hj1 ⊢
      rw [getD_set_ne (by omega)]
      exact h.later_ge1 j (by omega) hj2
    · intro p hp
      rw [tailPush, hdest] at hp
      dsimp only at hp
      rcases List.mem_append.mp hp with h1 | h2
      · exact h.out_lt p h1
      · rw [List.mem_singleton.mp h2]
        exact hlt2
    · intro p hp
      rw [tailPush, hdest] at hp ⊢
      dsimp only at hp ⊢
      rcases List.mem_append.mp hp with h1 | h2
      · exact Nat.le_trans (h.out_le p h1) (Nat.le_succ _)
      · rw [List.mem_singleton.mp h2]
    · rw [tailPush, hdest]
      dsimp only
      rw [List.pairwise_append]
      refine ⟨h.out_mono, List.pairwise_singleton _ _, ?_⟩
      intro p hp q hq
      rw [List.mem_singleton.mp hq]
      exact Nat.le_trans (h.out_le p hp) (Nat.le_succ _)
  · have hdest : tailDest st = st.unalign_itr := by
      rw [tailDest, if_neg (fun hc => hz (beq_iff_eq.mp hc))]
    refine ⟨?_, ?_, ?_, ?_, ?_, ?_, ?_⟩
    · rw [tailPush, hdest]
      exact hitr
    · rw [tailPush, hdest]
      simp [hlenc]
    · rw [tailPush, hdest]
      dsimp only
      rw [sum_drop_succ (by rw [List.length_set]; omega),
        getD_set_self (by omega), List.drop_set, if_pos (Nat.lt_succ_self _)]
      omega
    · intro j hj1 hj2
      rw [tailPush, hdest] at hj1 ⊢
      dsimp only at hj1 ⊢
      rw [getD_set_ne (by omega)]
      exact h.later_ge1 j hj1 hj2
    · intro p hp
      rw [tailPush, hdest] at hp
      dsimp only at hp
      rcases List.mem_append.mp hp with h1 | h2
      · exact h.out_lt p h1
      · rw [List.mem_singleton.mp h2]
        exact hitr
    · intro p hp
      rw [tailPush, hdest] at hp ⊢
      dsimp only at hp ⊢
      rcases List.mem_append.mp hp with h1 | h2
      · exact h.out_le p h1
      · rw [List.mem_singleton.mp h2]
    · rw [tailPush, hdest]
      dsimp only
      rw [List.pairwise_append]
      refine ⟨h.out_mono, List.pairwise_singleton _ _, ?_⟩
      intro p hp q hq
      rw [List.mem_singleton.mp hq]
      exact h.out_le p hp

theorem tailRouteInv_foldl (m : Nat) (recs : List Line) :
    ∀ st, TailRouteInv m st ((recs.filter fun l => l.key.isNone).length) →
    TailRouteInv m (recs.foldl tailStep st) 0 := by
  induction recs with
  | nil => intro st h; simpa using h
  | cons l rest ih =>
    intro st h
    rw [List.foldl_cons]
    cases hkey : l.key with
    | some k =>
      have hstep : tailStep st l = st := by simp [tailStep, hkey]
      have hcnt : ((l :: rest).filter fun l2 => l2.key.isNone)
          = rest.filter fun l2 => l2.key.isNone := by
        simp [List.filter_cons, hkey]
      rw [hcnt] at h
      rw [hstep]
      exact ih st h
    | none =>
      have hcnt : ((l :: rest).filter fun l2 => l2.key.isNone).length
          = (rest.filter fun l2 => l2.key.isNone).length + 1 := by
        simp [List.filter_cons, hkey]
      rw [hcnt] at h
      exact ih _ (tailRouteInv_step m st l hkey _ h)

theorem getD_map_num_lines (t : List table_records) (j : Nat) (h : j < t.length) :
    (t.map fun tr => tr.num_lines).getD j 0 = (t.getD j default).num_lines := by
  rw [List.getD_eq_getElem?_getD, List.getD_eq_getElem?_getD, List.getElem?_map,
    List.getElem?_eq_getElem h]
  rfl

/-- Final routing invariant of the pipeline instance. -/
theorem tailAssign_inv (B ts : Nat) (recs : List Line) (hts : 1 ≤ ts)
    (hk : KeysBounded ts recs) :
    TailRouteInv (numTailOf B ts recs)
      (recs.foldl tailStep ⟨0, tailCountsOf B ts recs, []⟩) 0 := by
  have hbins := tailBins_inv B ts recs hts hk
  refine tailRouteInv_foldl (numTailOf B ts recs) recs _ ⟨?_, ?_, ?_, ?_, ?_, ?_, ?_⟩
  · exact hbins.nonempty
  · simp [tailCountsOf, numTailOf]
  · simpa [tailCountsOf] using hbins.sumEq
  · intro j hj1 hj2
    dsimp only
    rw [tailCountsOf, getD_map_num_lines _ _ (by simpa [numTailOf] using hj2)]
    exact hbins.ge1 j hj1 (by simpa [numTailOf] using hj2)
  · intro p hp
    simp at hp
  · intro p hp
    simp at hp
  · simp

/-! Reassembly of a tag-sorted association list from its per-tag filters. -/

theorem filter_fst_lt_split (l : List (Nat × Line)) (m : Nat)
    (hsort : l.Pairwise fun p q => p.1 ≤ q.1) :
    l.filter (fun p => decide (p.1 < m + 1))
      = l.filter (fun p => decide (p.1 < m)) ++ l.filter (fun p => p.1 == m) := by
  induction l with
  | nil => simp
  | cons x xs ih =>
    rcases List.pairwise_cons.mp hsort with ⟨hx, hxs⟩
    rcases Nat.lt_trichotomy x.1 m with hlt | heq | hgt
    · rw [List.filter_cons, List.filter_cons, List.filter_cons,
        if_pos (by simpa using Nat.lt_succ_of_lt hlt), if_pos (by simpa using hlt),
        if_neg (by simp; omega), ih hxs]
      rfl
    · have hnil : xs.filter (fun p => decide (p.1 < m)) = [] := by
        rw [List.filter_eq_nil_iff]
        intro p hp
        have := hx p hp
        simp
        omega
      rw [List.filter_cons, List.filter_cons, List.filter_cons,
        if_pos (by simp; omega), if_neg (by simp; omega), if_pos (by simpa using heq),
        ih hxs, hnil]
      rfl
    · rw [List.filter_cons, List.filter_cons, List.filter_cons,
        if_neg (by simp; omega), if_neg (by simp; omega), if_neg (by simp; omega), ih hxs]

theorem flatten_filter_lt (l : List (Nat × Line))
    (hsort : l.Pairwise fun p q => p.1 ≤ q.1) (m : Nat) :
    ((List.range m).map fun j => (l.filter fun p => p.1 == j).map fun p => p.2).flatten
      = (l.filter fun p => decide (p.1 < m)).map fun p => p.2 := by
  induction m with
  | zero => simp
  | succ n ih =>
    rw [List.range_succ, List.map_append, List.flatten_append, ih,
      filter_fst_lt_split l n hsort]
    simp

theorem flatten_filter_ranges (l : List (Nat × Line)) (m : Nat)
    (hsort : l.Pairwise fun p q => p.1 ≤ q.1) (hb : ∀ p ∈ l, p.1 < m) :
    ((List.range m).map fun j => (l.filter fun p => p.1 == j).map fun p => p.2).flatten
      = l.map fun p => p.2 := by
  rw [flatten_filter_lt l hsort m]
  have : l.filter (fun p => decide (p.1 < m)) = l := by
    rw [List.filter_eq_self]
    intro p hp
    simpa using hb p hp
  rw [this]

/-! Plan-level key ordering lemmas. -/

theorem planOf_binBlock_length (B ts : Nat) (recs : List Line) :
    (planOf B ts recs).binBlock.length = ts - 1 := by
  rw [planOf, planFold_binBlock_length, alignedBinsOf, List.length_take]
  have := mkTable_length B ts recs
  exact inf_eq_left.mpr (by omega)

/-- Aligned keys strictly grow along the lexicographic (block id, sub-bucket)
order of their bins: the contrapositive of the planner monotonicity fields. -/
theorem key_lt_of_plan_lt (B ts : Nat) (recs : List Line) (hts : 1 ≤ ts)
    (ka kb : Nat) (hka : ka / interval < ts - 1) (hkb : kb / interval < ts - 1)
    (hlex : (planOf B ts recs).binBlock.getD (ka / interval) 0
          < (planOf B ts recs).binBlock.getD (kb / interval) 0
        ∨ ((planOf B ts recs).binBlock.getD (ka / interval) 0
              = (planOf B ts recs).binBlock.getD (kb / interval) 0
            ∧ (planOf B ts recs).binSub.getD (ka / interval) 0
              < (planOf B ts recs).binSub.getD (kb / interval) 0)) :
    ka < kb := by
  have hinv := planInv_fold B (alignedBinsOf B ts recs)
  have hlen := planOf_binBlock_length B ts recs
  have hbin : ka / interval < kb / interval := by
    by_contra hge
    have hble : kb / interval ≤ ka / interval := Nat.le_of_not_lt hge
    rcases hlex with h1 | ⟨heq, h2⟩
    · have := hinv.mono (kb / interval) (ka / interval) hble (by rw [planOf] at hlen; omega)
      rw [planOf] at h1
      omega
    · have := hinv.subMono (kb / interval) (ka / interval) hble (by rw [planOf] at hlen; omega)
        (by rw [planOf] at heq; exact heq.symm)
      rw [planOf] at h2
      omega
  by_contra hge
  have hble : kb ≤ ka := Nat.le_of_not_lt hge
  have := Nat.div_le_div_right (c := interval) hble
  omega

/-- Every line of an aligned bucket file loads into a sub-bucket index below
the worker's sub-bucket count. -/
theorem bucketFile_sub_lt (B ts : Nat) (recs : List Line) (b : Nat) (hts : 1 ≤ ts)
    (hk : KeysBounded ts recs) :
    ∀ l ∈ bucketFileOf (planOf B ts recs).binBlock recs b,
      (planOf B ts recs).binSub.getD (lineKey l / interval) 0 < numSubOf B ts recs b := by
  intro l hl
  rcases List.mem_filter.mp hl with ⟨hlr, hcond⟩
  cases hkey : l.key with
  | none => simp only [hkey] at hcond; exact absurd hcond (by simp)
  | some k =>
    simp only [hkey] at hcond
    have hb : (planOf B ts recs).binBlock.getD (k / interval) 0 = b := by
      simpa using hcond
    have hbin : k / interval < ts - 1 := by
      have := hk l hlr
      simpa [keyInRangeB, hkey] using this
    have hinv := planInv_fold B (alignedBinsOf B ts recs)
    have hlen := planOf_binBlock_length B ts recs
    have hsb := hinv.subBound (k / interval) (by rw [planOf] at hlen; omega)
    have hkey2 : lineKey l = k := by simp [lineKey, hkey]
    rw [hkey2]
    rw [numSubOf]
    simp only [blocksOf, planOf] at hb hsb ⊢
    rw [hb] at hsb
    omega

/-! Comparator lemmas and a concrete sort satisfying the contract. -/

theorem cmp_iff (a b : SamRecord) :
    SamRecord_cmp a b = true ↔ a.pos < b.pos ∨ (a.pos = b.pos ∧ a.read_id < b.read_id) := by
  rw [SamRecord_cmp]
  by_cases hpos : a.pos = b.pos
  · rw [if_neg (by simp [hpos])]
    simp [hpos]
  · rw [if_pos (by simpa using hpos)]
    simp
    omega

theorem cmp_false_pos_le {a b : SamRecord} (h : SamRecord_cmp b a = false) :
    a.pos ≤ b.pos := by
  rw [Bool.eq_false_iff, Ne, cmp_iff] at h
  omega

theorem cmp_asymm {a b : SamRecord} (h : SamRecord_cmp a b = true) :
    SamRecord_cmp b a = false := by
  rw [cmp_iff] at h
  rw [Bool.eq_false_iff, Ne, cmp_iff]
  omega

theorem cmp_false_trans {r a b : SamRecord} (h1 : SamRecord_cmp r a = true)
    (h2 : SamRecord_cmp b a = false) : SamRecord_cmp b r = false := by
  rw [cmp_iff] at h1
  rw [Bool.eq_false_iff, Ne, cmp_iff] at h2 ⊢
  omega

theorem mem_insertRec (r x : SamRecord) (l : List SamRecord) :
    x ∈ insertRec r l ↔ x = r ∨ x ∈ l := by
  induction l with
  | nil => simp [insertRec]
  | cons a t ih =>
    rw [insertRec]
    by_cases h : SamRecord_cmp r a
    · rw [if_pos h]
      simp only [List.mem_cons]
    · rw [if_neg h]
      simp only [List.mem_cons, ih]
      tauto

theorem insertRec_perm (r : SamRecord) (l : List SamRecord) :
    (insertRec r l).Perm (r :: l) := by
  induction l with
  | nil => simp [insertRec]
  | cons a t ih =>
    rw [insertRec]
    by_cases h : SamRecord_cmp r a
    · rw [if_pos h]
    · rw [if_neg h]
      exact (List.Perm.cons a ih).trans (List.Perm.swap r a t)

theorem insertRec_sorted (r : SamRecord) (l : List SamRecord) (h : SortedRun l) :
    SortedRun (insertRec r l) := by
  induction l with
  | nil =>
    rw [insertRec]
    exact List.pairwise_singleton _ _
  | cons a t ih =>
    rcases List.pairwise_cons.mp h with ⟨ha, ht⟩
    rw [insertRec]
    by_cases hc : SamRecord_cmp r a
    · rw [if_pos hc]
      refine List.pairwise_cons.mpr ⟨?_, h⟩
      intro b hb
      rcases List.mem_cons.mp hb with rfl | hbt
      · exact cmp_asymm hc
      · exact cmp_false_trans hc (ha b hbt)
    · rw [if_neg hc]
      refine List.pairwise_cons.mpr ⟨?_, ih ht⟩
      intro b hb
      rcases (mem_insertRec r b t).mp hb with rfl | hbt
      · exact Bool.eq_false_iff.mpr hc
      · exact ha b hbt

/-- Insertion sort satisfies the comparison-sort contract. -/
theorem insSort_sortSpec : SortSpec insSort := by
  intro v
  induction v with
  | nil => exact ⟨List.Perm.refl _, List.Pairwise.nil⟩
  | cons a t ih =>
    rw [insSort]
    exact ⟨(insertRec_perm a (insSort t)).trans (List.Perm.cons a ih.1),
      insertRec_sorted a (insSort t) ih.2⟩

/-! Key-order helpers on output lines. -/

theorem keyLE_some_some {a b : Line} {x y : Nat} (ha : a.key = some x) (hb : b.key = some y)
    (h : x ≤ y) : keyLE a b := by
  unfold keyLE
  rw [ha, hb]
  exact h

theorem keyLE_none_right {a b : Line} (hb : b.key = none) : keyLE a b := by
  unfold keyLE
  rw [hb]
  cases a.key <;> trivial

theorem keyLE_some_some_le {a b : Line} {x y : Nat} (ha : a.key = some x) (hb : b.key = some y)
    (h : keyLE a b) : x ≤ y := by
  unfold keyLE at h
  rw [ha, hb] at h
  exact h

theorem keyLE_none_some_false {a b : Line} {y : Nat} (ha : a.key = none)
    (hb : b.key = some y) (h : keyLE a b) : False := by
  unfold keyLE at h
  rw [ha, hb] at h
  exact h

/-! Membership facts for shard record streams. -/

theorem unalignedShard_none (B ts : Nat) (recs : List Line) (j : Nat) (x : Line)
    (hx : x ∈ unalignedShard B ts recs j) : x.key = none := by
  rw [unalignedShard] at hx
  rcases List.mem_map.mp hx with ⟨p, hp, rfl⟩
  rcases List.mem_filter.mp hp with ⟨hpa, _⟩
  rw [tailAssign] at hpa
  exact foldl_tail_out_none recs ⟨0, tailCountsOf B ts recs, []⟩ (by simp) p hpa

theorem mem_sub_tags (f : List SamRecord → List SamRecord) (B ts : Nat) (recs : List Line)
    (b : Nat) (hts : 1 ≤ ts) (hk : KeysBounded ts recs) (i : Nat) (r : SamRecord)
    (hr : r ∈ (loadBlock (planOf B ts recs).binSub (numSubOf B ts recs b)
        (bucketFileOf (planOf B ts recs).binBlock recs b)).subs.getD i []) :
    ∃ k, r.line.key = some k ∧ r.pos = k ∧ r.line ∈ recs ∧ k / interval < ts - 1
      ∧ (planOf B ts recs).binBlock.getD (k / interval) 0 = b
      ∧ (planOf B ts recs).binSub.getD (k / interval) 0 = i := by
  have hmem := loadBlock_mem _ _ _ (bucketFile_sub_lt B ts recs b hts hk) i r hr
  rcases hmem with ⟨hfile, hpos, hsub⟩
  rcases List.mem_filter.mp hfile with ⟨hlr, hcond⟩
  cases hkey : r.line.key with
  | none =>
    simp only [hkey] at hcond
    exact absurd hcond (by simp)
  | some k =>
    simp only [hkey] at hcond
    have hlk : lineKey r.line = k := by simp [lineKey, hkey]
    rw [hlk] at hsub
    refine ⟨k, rfl, by rw [hpos, hlk], hlr, ?_, by simpa using hcond, hsub⟩
    have := hk r.line hlr
    simpa [keyInRangeB, hkey] using this

theorem mem_alignedShard (f : List SamRecord → List SamRecord) (hf : SortSpec f)
    (B ts : Nat) (recs : List Line) (b : Nat) (hts : 1 ≤ ts) (hk : KeysBounded ts recs)
    (x : Line) (hx : x ∈ alignedShard f B ts recs b) :
    ∃ k, x.key = some k ∧ x ∈ recs ∧ k / interval < ts - 1
      ∧ (planOf B ts recs).binBlock.getD (k / interval) 0 = b := by
  rw [alignedShard] at hx
  rcases List.mem_map.mp hx with ⟨r, hr, rfl⟩
  rcases List.mem_flatten.mp hr with ⟨v, hv, hrv⟩
  rcases List.mem_map.mp hv with ⟨u, hu, rfl⟩
  rcases List.mem_iff_getElem.mp hu with ⟨i, hi, rfl⟩
  have hru : r ∈ (loadBlock (planOf B ts recs).binSub (numSubOf B ts recs b)
      (bucketFileOf (planOf B ts recs).binBlock recs b)).subs.getD i [] := by
    rw [List.getD_eq_getElem _ [] hi]
    exact ((hf _).1.mem_iff).mp hrv
  obtain ⟨k, hkey, _, hmem, hbin, htag, _⟩ := mem_sub_tags f B ts recs b hts hk i r hru
  exact ⟨k, hkey, hmem, hbin, htag⟩

/-- Record lines of one aligned shard are coordinate-sorted: each sub-bucket
is sorted by the comparator, and later sub-buckets hold strictly larger bins
by the planner invariant. -/
theorem alignedShard_pairwise (f : List SamRecord → List SamRecord) (hf : SortSpec f)
    (B ts : Nat) (recs : List Line) (b : Nat) (hts : 1 ≤ ts) (hk : KeysBounded ts recs) :
    (alignedShard f B ts recs b).Pairwise keyLE := by
  rw [alignedShard, List.pairwise_map]
  refine List.pairwise_flatten.mpr ⟨?_, ?_⟩
  · intro v hv
    rcases List.mem_map.mp hv with ⟨u, hu, rfl⟩
    rcases List.mem_iff_getElem.mp hu with ⟨i, hi, rfl⟩
    have hsorted : (f ((loadBlock (planOf B ts recs).binSub (numSubOf B ts recs b)
        (bucketFileOf (planOf B ts recs).binBlock recs b)).subs[i])).Pairwise
          (fun a c => SamRecord_cmp c a = false) := (hf _).2
    refine hsorted.imp_of_mem ?_
    intro a c ha hc hcmp
    have ha2 : a ∈ (loadBlock (planOf B ts recs).binSub (numSubOf B ts recs b)
        (bucketFileOf (planOf B ts recs).binBlock recs b)).subs.getD i [] := by
      rw [List.getD_eq_getElem _ [] hi]
      exact ((hf _).1.mem_iff).mp ha
    have hc2 : c ∈ (loadBlock (planOf B ts recs).binSub (numSubOf B ts recs b)
        (bucketFileOf (planOf B ts recs).binBlock recs b)).subs.getD i [] := by
      rw [List.getD_eq_getElem _ [] hi]
      exact ((hf _).1.mem_iff).mp hc
    obtain ⟨ka, hka, hpa, _, _, _, _⟩ := mem_sub_tags f B ts recs b hts hk i a ha2
    obtain ⟨kc, hkc, hpc, _, _, _, _⟩ := mem_sub_tags f B ts recs b hts hk i c hc2
    have hle : a.pos ≤ c.pos := cmp_false_pos_le hcmp
    exact keyLE_some_some hka hkc (by omega)
  · rw [List.pairwise_map, List.pairwise_iff_getElem]
    intro i j hi hj hij a ha c hc
    have ha2 : a ∈ (loadBlock (planOf B ts recs).binSub (numSubOf B ts recs b)
        (bucketFileOf (planOf B ts recs).binBlock recs b)).subs.getD i [] := by
      rw [List.getD_eq_getElem _ [] hi]
      exact ((hf _).1.mem_iff).mp ha
    have hc2 : c ∈ (loadBlock (planOf B ts recs).binSub (numSubOf B ts recs b)
        (bucketFileOf (planOf B ts recs).binBlock recs b)).subs.getD j [] := by
      rw [List.getD_eq_getElem _ [] hj]
      exact ((hf _).1.mem_iff).mp hc
    obtain ⟨ka, hka, hpa, hmema, hbina, hba, hsa⟩ := mem_sub_tags f B ts recs b hts hk i a ha2
    obtain ⟨kc, hkc, hpc, hmemc, hbinc, hbc, hsc⟩ := mem_sub_tags f B ts recs b hts hk j c hc2
    have hklt : ka < kc := key_lt_of_plan_lt B ts recs hts ka kc hbina hbinc
      (Or.inr ⟨by rw [hba, hbc], by rw [hsa, hsc]; exact hij⟩)
    exact keyLE_some_some hka hkc (Nat.le_of_lt hklt)

/-- Record lines of the final output are globally coordinate-sorted, with the
unaligned sentinel ordered after every finite key. -/
theorem pipelineOut_pairwise (f : List SamRecord → List SamRecord) (hf : SortSpec f)
    (B ts : Nat) (recs : List Line) (hts : 1 ≤ ts) (hk : KeysBounded ts recs) :
    (pipelineOut f B ts recs).Pairwise keyLE := by
  rw [pipelineOut]
  refine List.pairwise_flatten.mpr ⟨?_, ?_⟩
  · intro s hs
    rcases List.mem_map.mp hs with ⟨b, hbr, rfl⟩
    rw [shardFor]
    by_cases hba : b < numAlignedOf B ts recs
    · rw [if_pos hba]
      exact alignedShard_pairwise f hf B ts recs b hts hk
    · rw [if_neg hba]
      rw [List.pairwise_iff_getElem]
      intro i j hi hj hij
      exact keyLE_none_right (unalignedShard_none B ts recs _ _ (List.getElem_mem hj))
  · rw [List.pairwise_map]
    refine (List.pairwise_lt_range _).imp_of_mem ?_
    intro b1 b2 hb1 hb2 hlt x hx y hy
    by_cases h2 : b2 < numAlignedOf B ts recs
    · have h1 : b1 < numAlignedOf B ts recs := Nat.lt_trans hlt h2
      rw [shardFor, if_pos h1] at hx
      rw [shardFor, if_pos h2] at hy
      obtain ⟨kx, hkx, hmx, hbx, htagx⟩ := mem_alignedShard f hf B ts recs b1 hts hk x hx
      obtain ⟨ky, hky, hmy, hby, htagy⟩ := mem_alignedShard f hf B ts recs b2 hts hk y hy
      have hklt : kx < ky := key_lt_of_plan_lt B ts recs hts kx ky hbx hby
        (Or.inl (by rw [htagx, htagy]; exact hlt))
      exact keyLE_some_some hkx hky (Nat.le_of_lt hklt)
    · rw [shardFor, if_neg h2] at hy
      exact keyLE_none_right (unalignedShard_none B ts recs _ y hy)

/-- Unaligned records of the final output are exactly the unaligned records
of the input, in input order. -/
theorem pipelineOut_filter_none (f : List SamRecord → List SamRecord) (hf : SortSpec f)
    (B ts : Nat) (recs : List Line) (hts : 1 ≤ ts) (hk : KeysBounded ts recs) :
    (pipelineOut f B ts recs).filter (fun l => l.key.isNone)
      = recs.filter fun l => l.key.isNone := by
  rw [pipelineOut, List.filter_flatten, List.map_map, numBlocksOf, List.range_add,
    List.map_append, List.flatten_append, List.map_map]
  have h1 : ((List.range (numAlignedOf B ts recs)).map
      ((List.filter fun l => l.key.isNone) ∘ shardFor f B ts recs)).flatten = [] := by
    rw [List.flatten_eq_nil_iff]
    intro s hs
    rcases List.mem_map.mp hs with ⟨b, hbr, rfl⟩
    rw [List.mem_range] at hbr
    rw [Function.comp_apply, List.filter_eq_nil_iff]
    intro a ha
    rw [shardFor, if_pos hbr] at ha
    obtain ⟨k, hkey, _, _, _⟩ := mem_alignedShard f hf B ts recs b hts hk a ha
    simp [hkey]
  rw [h1]
  have h2 : ∀ j ∈ List.range (numTailOf B ts recs),
      (((List.filter fun l => l.key.isNone) ∘ shardFor f B ts recs) ∘ fun x =>
        numAlignedOf B ts recs + x) j = unalignedShard B ts recs j := by
    intro j hj
    rw [Function.comp_apply, Function.comp_apply, shardFor,
      if_neg (by omega), Nat.add_sub_cancel_left]
    rw [List.filter_eq_self]
    intro a ha
    rw [unalignedShard_none B ts recs j a ha]
    rfl
  rw [List.map_congr_left h2]
  have hinv := tailAssign_inv B ts recs hts hk
  have hasg : tailAssign (tailCountsOf B ts recs) recs
      = (recs.foldl tailStep ⟨0, tailCountsOf B ts recs, []⟩).out := rfl
  have h3 : ((List.range (numTailOf B ts recs)).map
      fun j => unalignedShard B ts recs j).flatten
      = (tailAssign (tailCountsOf B ts recs) recs).map fun p => p.2 := by
    simp only [unalignedShard]
    refine flatten_filter_ranges _ _ ?_ ?_
    · rw [hasg]
      exact hinv.out_mono
    · rw [hasg]
      exact hinv.out_lt
  rw [h3, hasg, foldl_tail_out_map recs ⟨0, tailCountsOf B ts recs, []⟩]
  simp

/-- Claim C1: for every well-formed input, any two aligned records of the
final concatenated output whose keys `K = G(contig) + position` satisfy
`K1 < K2` appear in that order — the output record stream is globally
coordinate-sorted. Quantified over every comparison sort satisfying the
`std::sort` contract, every per-worker budget, and every input whose aligned
keys fall into aligned histogram bins. -/
theorem claim_C1 (f : List SamRecord → List SamRecord) (hf : SortSpec f) (B ts : Nat)
    (recs : List Line) (hts : 1 ≤ ts) (hk : KeysBounded ts recs)
    (i j : Nat) (hi : i < (pipelineOut f B ts recs).length)
    (hj : j < (pipelineOut f B ts recs).length) (ki kj : Nat)
    (hki : ((pipelineOut f B ts recs).get ⟨i, hi⟩).key = some ki)
    (hkj : ((pipelineOut f B ts recs).get ⟨j, hj⟩).key = some kj)
    (hlt : ki < kj) : i < j := by
  have hpw := pipelineOut_pairwise f hf B ts recs hts hk
  rw [List.pairwise_iff_getElem] at hpw
  rcases Nat.lt_trichotomy i j with h | h | h
  · exact h
  · exfalso
    subst h
    rw [List.get_eq_getElem] at hki hkj
    rw [hki] at hkj
    exact absurd (Option.some.inj hkj) (by omega)
  · exfalso
    have hle := hpw j i hj hi h
    rw [List.get_eq_getElem] at hki hkj
    have := keyLE_some_some_le hkj hki hle
    omega

/-- Witness for C1: input (key 1030), (key 0), (unaligned); the output starts
with the key-0 record before the key-1030 record. -/
theorem claim_C1_witness : 0 < 1 :=
  claim_C1 insSort insSort_sortSpec 100 3
    [⟨some 1030, 6, 0⟩, ⟨some 0, 5, 1⟩, ⟨none, 7, 2⟩] (by decide) (by decide)
    0 1 (by decide) (by decide) 0 1030 (by decide) (by decide) (by decide)

/-- Claim C3: every record with the sentinel contig `*` appears in the final
output after every aligned record, and the unaligned records appear in
input-relative order: the unaligned subsequence of the output equals the
unaligned subsequence of the input. -/
theorem claim_C3 (f : List SamRecord → List SamRecord) (hf : SortSpec f) (B ts : Nat)
    (recs : List Line) (hts : 1 ≤ ts) (hk : KeysBounded ts recs) :
    (∀ i j (hi : i < (pipelineOut f B ts recs).length)
        (hj : j < (pipelineOut f B ts recs).length),
      ((pipelineOut f B ts recs).get ⟨i, hi⟩).key = none →
      (∃ k, ((pipelineOut f B ts recs).get ⟨j, hj⟩).key = some k) → j < i)
    ∧ (pipelineOut f B ts recs).filter (fun l => l.key.isNone)
        = recs.filter fun l => l.key.isNone := by
  refine ⟨?_, pipelineOut_filter_none f hf B ts recs hts hk⟩
  intro i j hi hj hnone hsome
  rcases hsome with ⟨k, hkj⟩
  have hpw := pipelineOut_pairwise f hf B ts recs hts hk
  rw [List.pairwise_iff_getElem] at hpw
  rcases Nat.lt_trichotomy j i with h | h | h
  · exact h
  · exfalso
    subst h
    rw [List.get_eq_getElem] at hnone hkj
    rw [hnone] at hkj
    exact absurd hkj (by simp)
  · exfalso
    have hle := hpw i j hi hj h
    rw [List.get_eq_getElem] at hnone hkj
    exact keyLE_none_some_false hnone hkj hle

/-- Witness for C3 at the same concrete input: the unaligned record sits at
output position 2, after the aligned record at position 0, and the unaligned
subsequence is preserved. -/
theorem claim_C3_witness :
    0 < 2
    ∧ (pipelineOut insSort 100 3 [⟨some 1030, 6, 0⟩, ⟨some 0, 5, 1⟩, ⟨none, 7, 2⟩]).filter
        (fun l => l.key.isNone)
      = ([⟨some 1030, 6, 0⟩, ⟨some 0, 5, 1⟩, ⟨none, 7, 2⟩] : List Line).filter
          fun l => l.key.isNone :=
  ⟨(claim_C3 insSort insSort_sortSpec 100 3
      [⟨some 1030, 6, 0⟩, ⟨some 0, 5, 1⟩, ⟨none, 7, 2⟩] (by decide) (by decide)).1
      2 0 (by decide) (by decide) (by decide) ⟨0, by decide⟩,
   (claim_C3 insSort insSort_sortSpec 100 3
      [⟨some 1030, 6, 0⟩, ⟨some 0, 5, 1⟩, ⟨none, 7, 2⟩] (by decide) (by decide)).2⟩

/-! Work-stealing and concatenation lemmas (components 4.F, 4.H). -/

theorem lookup_mem {β : Type _} {l : List (Nat × β)} {k : Nat} {v : β}
    (h : l.lookup k = some v) : (k, v) ∈ l := by
  induction l with
  | nil => simp [List.lookup] at h
  | cons p rest ih =>
    obtain ⟨a, b⟩ := p
    cases hak : (k == a) with
    | true =>
      simp only [List.lookup_cons, hak] at h
      have hka : k = a := by simpa using hak
      have hbv : b = v := by simpa using h
      subst hka
      subst hbv
      exact List.mem_cons_self _ _
    | false =>
      simp only [List.lookup_cons, hak] at h
      exact List.mem_cons_of_mem _ (ih h)

theorem lookup_of_mem {β : Type _} {l : List (Nat × β)} {k : Nat} {v : β}
    (h : (k, v) ∈ l) : ∃ w, l.lookup k = some w := by
  induction l with
  | nil => simp at h
  | cons p rest ih =>
    obtain ⟨a, b⟩ := p
    by_cases hak : k = a
    · subst hak
      exact ⟨b, by simp [List.lookup_cons]⟩
    · rcases List.mem_cons.mp h with heq | hmem
      · exact absurd (congrArg Prod.fst heq) hak
      · obtain ⟨w, hw⟩ := ih hmem
        refine ⟨w, ?_⟩
        simp only [List.lookup_cons, beq_eq_false_iff_ne.mpr hak]
        exact hw

theorem shardsProduced_form (f : List SamRecord → List SamRecord) (B ts : Nat)
    (recs : List Line) (claim : Nat → Nat) (W : Nat) :
    ∀ p ∈ shardsProduced f B ts recs claim W, p.2 = shardFor f B ts recs p.1 := by
  intro p hp
  rw [shardsProduced] at hp
  rcases List.mem_flatten.mp hp with ⟨ws, hws, hpw⟩
  rcases List.mem_map.mp hws with ⟨wk, _, rfl⟩
  rw [workerShards] at hpw
  rcases List.mem_map.mp hpw with ⟨b, _, rfl⟩
  rfl

theorem shardsProduced_mem (f : List SamRecord → List SamRecord) (B ts : Nat)
    (recs : List Line) (claim : Nat → Nat) (W b : Nat) (hb : b < numBlocksOf B ts recs)
    (hcl : claim b < W) :
    (b, shardFor f B ts recs b) ∈ shardsProduced f B ts recs claim W := by
  rw [shardsProduced]
  refine List.mem_flatten.mpr ⟨workerShards f B ts recs claim (claim b), ?_, ?_⟩
  · exact List.mem_map.mpr ⟨claim b, List.mem_range.mpr hcl, rfl⟩
  · rw [workerShards]
    exact List.mem_map.mpr ⟨b, List.mem_filter.mpr ⟨List.mem_range.mpr hb, by simp⟩, rfl⟩

/-- Whatever schedule assigned blocks to workers, the concatenator reads back
exactly the per-block shard stream. -/
theorem concatOut_eq_pipeline (f : List SamRecord → List SamRecord) (B ts : Nat)
    (recs : List Line) (claim : Nat → Nat) (W : Nat)
    (hcl : ∀ b, b < numBlocksOf B ts recs → claim b < W) :
    concatOut f B ts recs claim W = pipelineOut f B ts recs := by
  rw [concatOut, pipelineOut]
  refine congrArg _ (List.map_congr_left ?_)
  intro b hb
  rw [List.mem_range] at hb
  obtain ⟨w, hw⟩ :=
    lookup_of_mem (shardsProduced_mem f B ts recs claim W b hb (hcl b hb))
  rw [hw]
  have hform := shardsProduced_form f B ts recs claim W (b, w) (lookup_mem hw)
  simpa using hform

/-- Claim C9: for a fixed input, memory budget and worker count, any two runs
produce identical output record streams regardless of thread scheduling: the
shard written for a block is a function of the block id alone (`thread_id`
only drives logging), each block is claimed exactly once at the
mutex-protected counter, and the concatenator reads shards in block-id
order. -/
theorem claim_C9 (f : List SamRecord → List SamRecord) (B ts : Nat) (recs : List Line)
    (c1 c2 : Nat → Nat) (W : Nat)
    (h1 : ∀ b, b < numBlocksOf B ts recs → c1 b < W)
    (h2 : ∀ b, b < numBlocksOf B ts recs → c2 b < W) :
    concatOut f B ts recs c1 W = concatOut f B ts recs c2 W := by
  rw [concatOut_eq_pipeline f B ts recs c1 W h1,
    concatOut_eq_pipeline f B ts recs c2 W h2]

/-- Witness for C9: two schedules over two workers (all blocks to worker 0,
respectively blocks split by parity) give identical concatenated output. -/
theorem claim_C9_witness :
    concatOut insSort 100 2 [⟨some 0, 5, 0⟩, ⟨none, 7, 1⟩] (fun _ => 0) 2
      = concatOut insSort 100 2 [⟨some 0, 5, 0⟩, ⟨none, 7, 1⟩] (fun b => b % 2) 2 :=
  claim_C9 insSort 100 2 [⟨some 0, 5, 0⟩, ⟨none, 7, 1⟩] (fun _ => 0) (fun b => b % 2) 2
    (fun _ _ => Nat.zero_lt_two) (fun b _ => Nat.mod_lt b (by decide))

end FSS
